import Mathlib

/-!
Verification development for the list-of-lists n-dimensional sparse matrix
storage engine (`ext/nmatrix/storage/list.c`).

The C code represents an n-dimensional sparse matrix as nested, key-ordered
singly linked lists: a `NODE` holds a `key`, an owned `val` (either a terminal
element or a nested `LIST` one level deeper) and a `next` pointer; a `LIST` is
a header pointing at the first `NODE`.  A `LIST_STORAGE` owns the root list
(`rows`), the `shape` vector, the `rank` and a `default_val` returned for any
coordinate with no stored entry.

The element type is modelled by a type parameter `α` with decidable equality:
the C code dispatches element equality through `ElemEqEq[dtype][0]` and
copy/cast through `SetFuncs`; for matching dtypes (which is what every claim
assumes) equality is plain value equality and the cast is the identity, so a
single `α` stands for the dtype and `decide (a = b)` for the dtype's equality
predicate.

Pointer mutation is modelled functionally: a C function that mutates a list
through a held `NODE*` becomes a function returning the updated list; writing
through a node found by key is `list_set` (replace the value stored at a key).
-/

namespace NML

mutual

/-- The `void* val` of a C `NODE`: either a terminal element of the dtype, or
an owned nested list one nesting level deeper. -/
inductive Entry (α : Type) : Type where
  | elem : α → Entry α
  | sub  : LL α → Entry α

/-- A chain of C `NODE`s (equivalently, a `LIST` header together with the
chain it owns): empty, or a node carrying `key`, owned value, and the rest. -/
inductive LL (α : Type) : Type where
  | nil  : LL α
  | cons : Nat → Entry α → LL α → LL α

end

variable {α : Type}

/-- Modelled from the spec: `find(list, key)` of the list primitive (companion
file not in src). Walks the chain and returns the value of the node with
exactly the given key, or none; scans to exact match or end. -/
def list_find : LL α → Nat → Option (Entry α)
  | LL.nil, _ => none
  | LL.cons k v rest, key => if k = key then some v else list_find rest key

/-- Modelled from the spec: `insert(list, replace, key, value)` of the list
primitive (companion file not in src). Keeps ascending key order: a missing
key gets a new node at its ordered position; an existing key either has its
value replaced (`replace = true`) or is left as is (`replace = false`, the
caller then descends into the existing value). Returns the updated list and
the value now held by the node with that key. -/
def list_insert : LL α → Bool → Nat → Entry α → LL α × Entry α
  | LL.nil, _, key, val => (LL.cons key val LL.nil, val)
  | LL.cons hk hv rest, replace, key, val =>
    if key < hk then (LL.cons key val (LL.cons hk hv rest), val)
    else if key = hk then
      if replace then (LL.cons key val rest, val)
      else (LL.cons hk hv rest, hv)
    else
      let p := list_insert rest replace key val
      (LL.cons hk hv p.1, p.2)

/-- Modelled from the spec: `remove(list, key)` of the list primitive
(companion file not in src). Splices out the node with the given key and
returns its owned value, or returns none leaving the list untouched. -/
def list_remove : LL α → Nat → LL α × Option (Entry α)
  | LL.nil, _ => (LL.nil, none)
  | LL.cons k v rest, key =>
    if k = key then (rest, some v)
    else
      let p := list_remove rest key
      (LL.cons k v p.1, p.2)

/-- Functional stand-in for writing through a `NODE*` held by the caller:
replace the value stored at `key` (the list structure is otherwise shared). -/
def list_set : LL α → Nat → Entry α → LL α
  | LL.nil, _, _ => LL.nil
  | LL.cons k v rest, key, val =>
    if k = key then LL.cons k val rest
    else LL.cons k v (list_set rest key val)

deriving instance DecidableEq for Entry, LL

/-- `LIST_STORAGE`: rank, shape, default value and the owned root list.  The
`dtype` tag is represented by the type parameter `α` itself. -/
structure LIST_STORAGE (α : Type) : Type where
  rank : Nat
  shape : List Nat
  default_val : α
  rows : LL α
deriving DecidableEq

/-- `list_storage_create`: fresh container with an empty root list. -/
def list_storage_create (shape : List Nat) (rank : Nat) (init_val : α) : LIST_STORAGE α :=
  { rank := rank, shape := shape, default_val := init_val, rows := LL.nil }

/-- The descent loop of `list_storage_get`: drill through one list per
coordinate; a failed `find` at any level short-circuits to the default, a
terminal hit returns the stored element.  Finding a nested list where a
terminal is expected (or vice versa) is undefined behaviour in the C code
(a pointer reinterpreted as an element) and is modelled as `none`. -/
def list_storage_get_r (dflt : α) : LL α → List Nat → Option α
  | _, [] => none
  | l, [k] =>
    match list_find l k with
    | some (Entry.elem a) => some a
    | some (Entry.sub _) => none
    | none => some dflt
  | l, k :: c2 :: cs =>
    match list_find l k with
    | some (Entry.sub t) => list_storage_get_r dflt t (c2 :: cs)
    | some (Entry.elem _) => none
    | none => some dflt

/-- `list_storage_get(s, slice)`: the C code reads `slice->coords[0 .. rank-1]`;
the model takes the coordinate tuple as a list (theorems relate its length to
`s.rank`). -/
def list_storage_get (s : LIST_STORAGE α) (coords : List Nat) : Option α :=
  list_storage_get_r s.default_val s.rows coords

/-- The descent loop of `list_storage_insert`: on each of the first `rank - 1`
axes, `list_insert` with `replace = false` and a freshly created empty list
(descending into the existing list if the key was already present, mirrored by
`list_set` writing the updated sub-list back through the node); at the final
axis, `list_insert` with `replace = true`.  Returns the updated list and
`n->val` (the value now stored); type confusion (UB in C) is `none`. -/
def list_storage_insert_r (v : α) : LL α → List Nat → Option (LL α × α)
  | _, [] => none
  | l, [k] =>
    let p := list_insert l true k (Entry.elem v)
    match p.2 with
    | Entry.elem a => some (p.1, a)
    | Entry.sub _ => none
  | l, k :: c2 :: cs =>
    let p := list_insert l false k (Entry.sub LL.nil)
    match p.2 with
    | Entry.sub t =>
      match list_storage_insert_r v t (c2 :: cs) with
      | some (t2, ret) => some (list_set p.1 k (Entry.sub t2), ret)
      | none => none
    | Entry.elem _ => none

/-- `list_storage_insert(s, slice, val)`. -/
def list_storage_insert (s : LIST_STORAGE α) (coords : List Nat) (v : α) :
    Option (LIST_STORAGE α × α) :=
  match list_storage_insert_r v s.rows coords with
  | some (r2, ret) => some ({ s with rows := r2 }, ret)
  | none => none

/-- Split a coordinate tuple into the `rank - 1` intermediate coordinates and
the final one (`none` on an empty tuple). -/
def splitLast : List Nat → Option (List Nat × Nat)
  | [] => none
  | [k] => some ([], k)
  | k :: k2 :: rest =>
    match splitLast (k2 :: rest) with
    | some (inter, lastk) => some (k :: inter, lastk)
    | none => none

/-- The descent loop of `list_storage_remove`: walk the intermediate
coordinates recording, per level, the coordinate used and the list searched
(the C code records the found `NODE*` in `stack`; the pair `(key, list)`
identifies that node functionally).  Returns the recorded path and the final
level's list, or `none` if any `find` fails. -/
def descend : LL α → List Nat → Option (List (Nat × LL α) × LL α)
  | l, [] => some ([], l)
  | l, k :: rest =>
    match list_find l k with
    | some (Entry.sub t) =>
      match descend t rest with
      | some (path, leaf) => some ((k, l) :: path, leaf)
      | none => none
    | _ => none

/-- Write an updated final-level list back along a recorded descent path
(outermost level first): each level's node gets its value replaced by the
rebuilt sub-list. -/
def rebuild : List (Nat × LL α) → LL α → LL α
  | [], leaf => leaf
  | (k, l) :: rest, leaf => list_set l k (Entry.sub (rebuild rest leaf))

/-- The back-walk of `list_storage_remove` over the recorded stack, deepest
level first (the path comes reversed), fused with writing the updated lists
back up to the root.  Exactly as in the C code: while walking (`cont`), if the
list just vacated (`stack[r]->val`, the `child` below the node recorded at
this level) is empty, the code executes
`free(list_remove(stack[r]->val, slice->coords[r]))` — removing `coords[r]`
from that same empty child list — and keeps walking; a non-empty child stops
the walk. -/
def prune_rebuild : List (Nat × LL α) → LL α → Bool → LL α
  | [], child, _ => child
  | (k, l) :: rest, child, cont =>
    match cont, child with
    | true, LL.nil =>
      prune_rebuild rest (list_set l k (Entry.sub (list_remove LL.nil k).1)) true
    | _, _ =>
      prune_rebuild rest (list_set l k (Entry.sub child)) false

/-- `list_storage_remove(s, slice)`: descend recording the stack (a failed
find returns `none` with everything untouched), remove at the final level,
and if something was removed walk the stack back pruning (as the C code
actually does it).  Returns the updated container and the removed value. -/
def list_storage_remove (s : LIST_STORAGE α) (coords : List Nat) :
    LIST_STORAGE α × Option (Entry α) :=
  match splitLast coords with
  | none => (s, none)
  | some (inter, lastk) =>
    match descend s.rows inter with
    | none => (s, none)
    | some (path, leaf) =>
      let p := list_remove leaf lastk
      match p.2 with
      | none => ({ s with rows := rebuild path p.1 }, none)
      | some v => ({ s with rows := prune_rebuild path.reverse p.1 true }, some v)

/-- Modelled from the spec: `count_storage_max_elements` — the dense element
count, i.e. the product of the shape extents (common-code helper not in src). -/
def count_storage_max_elements (s : LIST_STORAGE α) : Nat := s.shape.prod

/-- Modelled from the spec: `list_eqeq_value(l, v, dtype, recursions, &checked)`
(companion eqeq walker not in src) — do all terminal elements stored anywhere
under `l` equal `v`?  Counts every terminal comparison in the accumulator
(`num_checked`), short-circuiting on the first mismatch.  A node whose value
has the wrong shape for the recursion depth is UB in C; the model returns
`false` there (unreachable on well-formed trees). -/
def list_eqeq_value [DecidableEq α] : LL α → α → Nat → Nat → Bool × Nat
  | LL.nil, _, _, checked => (true, checked)
  | LL.cons _ e rest, v, recursions, checked =>
    match recursions, e with
    | 0, Entry.elem a =>
      if a = v then list_eqeq_value rest v 0 (checked + 1) else (false, checked + 1)
    | r + 1, Entry.sub t =>
      let p := list_eqeq_value t v r checked
      if p.1 then list_eqeq_value rest v (r + 1) p.2 else (false, p.2)
    | _, _ => (false, checked)

/-- Modelled from the spec: `list_eqeq_list(left, right, left_val, right_val,
dtype, recursions, &checked)` (companion eqeq walker not in src) — merge-walk
both key-sorted lists: matching keys compare terminals (or recurse one level);
a key present on one side only has that side's stored values compared against
the *other* side's default; every terminal comparison bumps `num_checked`. -/
def list_eqeq_list [DecidableEq α] : LL α → LL α → α → α → Nat → Nat → Bool × Nat
  | LL.nil, LL.nil, _, _, _, checked => (true, checked)
  | LL.nil, LL.cons rk re rrest, lv, _, recursions, checked =>
    list_eqeq_value (LL.cons rk re rrest) lv recursions checked
  | LL.cons lk le lrest, LL.nil, _, rv, recursions, checked =>
    list_eqeq_value (LL.cons lk le lrest) rv recursions checked
  | LL.cons lk le lrest, LL.cons rk re rrest, lv, rv, recursions, checked =>
    if lk = rk then
      match recursions, le, re with
      | 0, Entry.elem la, Entry.elem ra =>
        if la = ra then list_eqeq_list lrest rrest lv rv 0 (checked + 1)
        else (false, checked + 1)
      | r + 1, Entry.sub lt, Entry.sub rt =>
        let p := list_eqeq_list lt rt lv rv r checked
        if p.1 then list_eqeq_list lrest rrest lv rv (r + 1) p.2 else (false, p.2)
      | _, _, _ => (false, checked)
    else if lk < rk then
      match recursions, le with
      | 0, Entry.elem la =>
        if la = rv then list_eqeq_list lrest (LL.cons rk re rrest) lv rv 0 (checked + 1)
        else (false, checked + 1)
      | r + 1, Entry.sub lt =>
        let p := list_eqeq_value lt rv r checked
        if p.1 then list_eqeq_list lrest (LL.cons rk re rrest) lv rv (r + 1) p.2
        else (false, p.2)
      | _, _ => (false, checked)
    else
      match recursions, re with
      | 0, Entry.elem ra =>
        if ra = lv then list_eqeq_list (LL.cons lk le lrest) rrest lv rv 0 (checked + 1)
        else (false, checked + 1)
      | r + 1, Entry.sub rt =>
        let p := list_eqeq_value rt lv r checked
        if p.1 then list_eqeq_list (LL.cons lk le lrest) rrest lv rv (r + 1) p.2
        else (false, p.2)
      | _, _ => (false, checked)
termination_by l r _ _ _ _ => sizeOf l + sizeOf r

/-- `list_storage_eqeq(left, right)`: case split on root emptiness, exactly as
in the source — empty/empty compares the defaults; one side empty compares the
other side's stored values against this side's default; both non-empty runs
the merge walk; whenever fewer slots than `max_elements` were checked and the
walk succeeded, the two defaults are compared as well.  Recursion depth, shape
product and (via the single `α`) the dtype all come from the left operand. -/
def list_storage_eqeq [DecidableEq α] (left right : LIST_STORAGE α) : Bool :=
  let max_elements := count_storage_max_elements left
  match left.rows, right.rows with
  | LL.nil, LL.nil => decide (left.default_val = right.default_val)
  | LL.nil, LL.cons rk re rrest =>
    let p := list_eqeq_value (LL.cons rk re rrest) left.default_val (left.rank - 1) 0
    if !p.1 then false
    else if p.2 < max_elements then decide (left.default_val = right.default_val)
    else true
  | LL.cons lk le lrest, LL.nil =>
    let p := list_eqeq_value (LL.cons lk le lrest) right.default_val (left.rank - 1) 0
    if !p.1 then false
    else if p.2 < max_elements then decide (left.default_val = right.default_val)
    else true
  | LL.cons lk le lrest, LL.cons rk re rrest =>
    let p := list_eqeq_list (LL.cons lk le lrest) (LL.cons rk re rrest)
      left.default_val right.default_val (left.rank - 1) 0
    if !p.1 then false
    else if p.2 < max_elements then decide (left.default_val = right.default_val)
    else true

/-- `list_storage_count_elements_r(l, recursions)`: at recursion depth 0 count
the nodes of `l` directly, otherwise recurse into each node's nested list and
sum.  (A terminal element where a nested list is expected is UB in C; the
model skips it, unreachable on well-formed trees.) -/
def list_storage_count_elements_r : LL α → Nat → Nat
  | LL.nil, _ => 0
  | LL.cons _ e rest, recursions =>
    match recursions, e with
    | 0, _ => 1 + list_storage_count_elements_r rest 0
    | r + 1, Entry.sub t =>
      list_storage_count_elements_r t r + list_storage_count_elements_r rest (r + 1)
    | r + 1, Entry.elem _ => list_storage_count_elements_r rest (r + 1)

/-- Inner loop of `count_list_storage_nd_elements`: count the nodes of row `i`
whose column key differs from `i`. -/
def ndRow (i : Nat) : LL α → Nat
  | LL.nil => 0
  | LL.cons j _ rest => (if i ≠ j then 1 else 0) + ndRow i rest

/-- Outer loop of `count_list_storage_nd_elements` over the row list. -/
def ndWalk : LL α → Nat
  | LL.nil => 0
  | LL.cons i e rest =>
    (match e with
     | Entry.sub t => ndRow i t
     | Entry.elem _ => 0) + ndWalk rest

/-- `count_list_storage_nd_elements(s)`: raises (`rb_raise`, modelled as
`none`) iff the rank is not 2; otherwise counts stored entries off the
diagonal of the two-level structure. -/
def count_list_storage_nd_elements (s : LIST_STORAGE α) : Option Nat :=
  if s.rank = 2 then some (ndWalk s.rows) else none

/-- Dense storage collaborator: shape, rank and the flat row-major element
buffer. -/
structure DENSE_STORAGE (α : Type) : Type where
  rank : Nat
  shape : List Nat
  elements : List α
deriving DecidableEq

/-- Append a chain at the tail (the effect of `list_insert_after` applied at a
cursor that is the last node of the list being built). -/
def llAppend : LL α → LL α → LL α
  | LL.nil, l2 => l2
  | LL.cons k v rest, l2 => LL.cons k v (llAppend rest l2)

/-- The `recursions == 0` branch of `list_storage_cast_copy_contents_dense`:
scan `dim` consecutive flat positions (keys `j, j+1, …`), inserting a node for
every element that differs from the zero test value — `list_insert` on the
still-empty list, then `list_insert_after` at the held cursor, i.e. built in
ascending key order.  Returns the chain, the position after the loop (one
increment per iteration) and the `added` flag. -/
def termLoop [DecidableEq α] (rhs : List α) (zero : α) : Nat → Nat → Nat → LL α × Nat × Bool
  | 0, _, pos => (LL.nil, pos, false)
  | rem + 1, j, pos =>
    let x := rhs.getD pos zero
    match termLoop rhs zero rem (j + 1) (pos + 1) with
    | (rest, pos2, added) =>
      if x = zero then (rest, pos2, added)
      else (LL.cons j (Entry.elem x) rest, pos2, true)

/-- `list_storage_cast_copy_contents_dense(lhs, rhs, zero, …, pos, coords,
shape, rank, recursions)`.  `dims` is the shape suffix for the current level
(`shape[rank-1-recursions ..]`), so `recursions = dims.length - 1`.  Faithful
to the source, including: `pos` is incremented once per loop iteration at
*every* level and decremented once when the function returns, and the `added`
flag is only ever assigned in the `recursions == 0` branch — the line that
would propagate a sub-level's flag (`added = (added || added_list)`) is
commented out — so every call with `recursions > 0` returns `false`, and the
caller one level further up deletes the sub-list it just filled. -/
def list_storage_cast_copy_contents_dense [DecidableEq α] (rhs : List α) (zero : α) :
    List Nat → Nat → LL α × Nat × Bool
  | [], pos => (LL.nil, pos - 1, false)
  | [d], pos =>
    match termLoop rhs zero d 0 pos with
    | (l, pos2, added) => (l, pos2 - 1, added)
  | d :: d2 :: ds, pos =>
    let st := (List.range d).foldl
      (fun (st : LL α × Nat) j =>
        match list_storage_cast_copy_contents_dense rhs zero (d2 :: ds) st.2 with
        | (subl, posAfter, addedList) =>
          if addedList then (llAppend st.1 (LL.cons j (Entry.sub subl) LL.nil), posAfter + 1)
          else (st.1, posAfter + 1))
      (LL.nil, pos)
    (st.1, st.2 - 1, false)

/-- `list_storage_from_dense(rhs, l_dtype)`: the produced default is the
dtype's zero representation (`zero`); with matching dtypes (what the claims
assume) the source-side test zero is the same value and the cast on insertion
is the identity. -/
def list_storage_from_dense [DecidableEq α] (rhs : DENSE_STORAGE α) (zero : α) :
    LIST_STORAGE α :=
  { rank := rhs.rank, shape := rhs.shape, default_val := zero,
    rows := (list_storage_cast_copy_contents_dense rhs.elements zero rhs.shape 0).1 }

/-- Compressed-sparse-row (Yale) collaborator: `a` holds the `shape[0]`
diagonal slots, then the zero sentinel slot, then off-diagonal values; `ija`
holds the per-row boundary indices in its first `shape[0] + 1` slots and
column indices from there on, positions shared with `a`. -/
structure YALE_STORAGE (α : Type) : Type where
  rank : Nat
  shape : List Nat
  a : List α
  ija : List Nat
deriving DecidableEq

/-- The inner column loop of `list_storage_from_yale` for row `i`: `count`
stored entries starting at Yale position `ija`, each attached with
`list_insert` (first node of the fresh row) or `list_insert_after` at the
cursor — i.e. appended in Yale order; while `add_diag` is still set, the
diagonal value for row `i` is spliced in just before the first column index
exceeding `i`, or appended after the loop. -/
def yaleRowEntries [Inhabited α] (y : YALE_STORAGE α) (i : Nat) :
    Nat → Nat → Bool → LL α
  | 0, _, add_diag =>
    if add_diag then LL.cons i (Entry.elem (y.a.getD i default)) LL.nil else LL.nil
  | c + 1, ija, add_diag =>
    let jj := y.ija.getD ija 0
    let v := y.a.getD ija default
    if decide (i < jj) && add_diag then
      LL.cons i (Entry.elem (y.a.getD i default))
        (LL.cons jj (Entry.elem v) (yaleRowEntries y i c (ija + 1) false))
    else
      LL.cons jj (Entry.elem v) (yaleRowEntries y i c (ija + 1) add_diag)

/-- One row of `list_storage_from_yale`: row boundaries from `ija[i]` and
`ija[i+1]`, `add_diag` iff the diagonal slot `a[i]` differs from the zero
sentinel; a row with no stored entries and a zero diagonal is never created
(`none`). -/
def yaleRow [DecidableEq α] [Inhabited α] (y : YALE_STORAGE α) (R_ZERO : α) (i : Nat) :
    Option (LL α) :=
  let ija := y.ija.getD i 0
  let ijaNext := y.ija.getD (i + 1) 0
  let add_diag := !decide (y.a.getD i default = R_ZERO)
  if decide (ija < ijaNext) || add_diag then
    some (yaleRowEntries y i (ijaNext - ija) ija add_diag)
  else none

/-- The row walk of `list_storage_from_yale`: rows are processed from
`shape[0] - 1` down to `0` (`for (i = rhs->shape[0]; i-- > 0;)`) and each
created row is attached with `list_insert` into the still-empty row list
(first row) or `list_insert_after` at the cursor of the previously attached
row — i.e. appended in processing order, which is descending row index. -/
def yaleRows [DecidableEq α] [Inhabited α] (y : YALE_STORAGE α) (R_ZERO : α) : Nat → LL α
  | 0 => LL.nil
  | i + 1 =>
    match yaleRow y R_ZERO i with
    | some row => LL.cons i (Entry.sub row) (yaleRows y R_ZERO i)
    | none => yaleRows y R_ZERO i

/-- `list_storage_from_yale(rhs, l_dtype)`: the new default is cast from the
zero sentinel slot `a[shape[0]]`; raises (modelled `none`) iff the source
rank is not 2. -/
def list_storage_from_yale [DecidableEq α] [Inhabited α] (y : YALE_STORAGE α) :
    Option (LIST_STORAGE α) :=
  let s0 := y.shape.getD 0 0
  let R_ZERO := y.a.getD s0 default
  if y.rank = 2 then
    some { rank := y.rank, shape := [y.shape.getD 0 0, y.shape.getD 1 0],
           default_val := R_ZERO, rows := yaleRows y R_ZERO s0 }
  else none

/-! ## Specification-side definitions

Predicates and observation functions used to *state* properties of the code:
well-formedness (the data-model invariants: strict ascending keys, nesting
depth matching the rank, stored coordinates within the shape), coordinate
enumeration, and per-coordinate lookup. -/

/-- Is `k` below the key of the first node (vacuously true for the empty
chain)?  Together with `wfBL` this makes every key list strictly ascending. -/
def keyLt (k : Nat) : LL α → Bool
  | LL.nil => true
  | LL.cons k2 _ _ => decide (k < k2)

mutual

/-- Well-formedness of a stored value with respect to the remaining shape
extents: a terminal element exactly when no axes remain, otherwise a nested
well-formed list. -/
def wfBE : Entry α → List Nat → Bool
  | Entry.elem _, dims => dims.isEmpty
  | Entry.sub t, dims => !dims.isEmpty && wfBL t dims

/-- Well-formedness of a list whose level consumes the first of the remaining
shape extents `dims`: every key below the extent, keys strictly ascending, and
every value well-formed for the remaining axes. -/
def wfBL : LL α → List Nat → Bool
  | LL.nil, _ => true
  | LL.cons k e rest, dims =>
    match dims with
    | [] => false
    | d :: ds => decide (k < d) && wfBE e ds && keyLt k rest && wfBL rest (d :: ds)

end

/-- The keys of a chain, in order. -/
def llKeys : LL α → List Nat
  | LL.nil => []
  | LL.cons k _ rest => k :: llKeys rest

/-- Componentwise "coordinate tuple within shape" (also forces equal length,
i.e. tuple length = rank). -/
def inShape : List Nat → List Nat → Bool
  | [], [] => true
  | c :: cs, d :: ds => decide (c < d) && inShape cs ds
  | _, _ => false

/-- All coordinate tuples within a shape, in row-major order. -/
def allCoords : List Nat → List (List Nat)
  | [] => [[]]
  | d :: ds => (List.range d).flatMap fun k => (allCoords ds).map (k :: ·)

mutual

/-- Coordinate suffixes stored under an entry: a terminal contributes the
empty suffix, a nested list its own stored coordinates. -/
def entryCoords : Entry α → List (List Nat)
  | Entry.elem _ => [[]]
  | Entry.sub t => llCoords t

/-- The coordinate tuples stored in a tree (each node prefixes its key onto
its entry's suffixes). -/
def llCoords : LL α → List (List Nat)
  | LL.nil => []
  | LL.cons k e rest => (entryCoords e).map (k :: ·) ++ llCoords rest

end

mutual

/-- Look a coordinate suffix up in an entry. -/
def entryLookup : Entry α → List Nat → Option α
  | Entry.elem a, [] => some a
  | Entry.elem _, _ :: _ => none
  | Entry.sub _, [] => none
  | Entry.sub t, c :: cs => llLookup t (c :: cs)

/-- Look a full coordinate tuple up in a tree: the stored terminal element, or
`none` when the coordinate has no entry. -/
def llLookup : LL α → List Nat → Option α
  | LL.nil, _ => none
  | LL.cons _ _ _, [] => none
  | LL.cons k e rest, key :: cs =>
    if k = key then entryLookup e cs else llLookup rest (key :: cs)

end

/-- The effective element of a container at a coordinate: the stored value, or
the default when absent. -/
def effVal (l : LL α) (dflt : α) (c : List Nat) : α :=
  (llLookup l c).getD dflt

/-- A failed `find` at some level of the descent for this coordinate tuple
(the "not found" control-flow outcome of `get`/`remove`): the walk follows
stored nested lists and hits a key with no node.  Type confusion along the way
(a terminal where a list is expected) is not a miss. -/
def findMiss : LL α → List Nat → Bool
  | _, [] => false
  | l, k :: cs =>
    match list_find l k with
    | none => true
    | some (Entry.sub t) => findMiss t cs
    | some (Entry.elem _) => false

/-- The chain built by inserting a single coordinate path into an empty tree:
one node per level, ending in the terminal value. -/
def freshPath (v : α) : List Nat → LL α
  | [] => LL.nil
  | [k] => LL.cons k (Entry.elem v) LL.nil
  | k :: k2 :: cs => LL.cons k (Entry.sub (freshPath v (k2 :: cs))) LL.nil

/-- Keys strictly ascending along a chain (the Node/List ordering invariant
on its own, independent of depth and shape). -/
def llSorted : LL α → Bool
  | LL.nil => true
  | LL.cons k _ rest => keyLt k rest && llSorted rest

/-- The number of distinct coordinates visited by the `list_eqeq_list` merge
walk — the size of the union of the two trees' stored coordinate sets, mirror
of the walk's accounting. -/
def unionCount : LL α → LL α → Nat
  | LL.nil, r => (llCoords r).length
  | LL.cons lk le lrest, LL.nil => (llCoords (LL.cons lk le lrest)).length
  | LL.cons lk le lrest, LL.cons rk re rrest =>
    if lk = rk then
      (match le, re with
       | Entry.sub lt, Entry.sub rt => unionCount lt rt
       | _, _ => 1) + unionCount lrest rrest
    else if lk < rk then
      (entryCoords le).length + unionCount lrest (LL.cons rk re rrest)
    else
      (entryCoords re).length + unionCount (LL.cons lk le lrest) rrest
termination_by l r => sizeOf l + sizeOf r

/-- A stored coordinate tuple that is a rank-2 off-diagonal position: `[i, j]`
with `i ≠ j`. -/
def ndPred : List Nat → Bool
  | [i, j] => decide (i ≠ j)
  | _ => false

/-! ## Lemmas about the list primitives -/

theorem list_insert_replace_val : ∀ (l : LL α) (key : Nat) (val : Entry α),
    (list_insert l true key val).2 = val
  | LL.nil, key, val => by simp [list_insert]
  | LL.cons hk hv rest, key, val => by
    simp only [list_insert]
    by_cases h1 : key < hk
    · simp [h1]
    · by_cases h2 : key = hk
      · simp [h1, h2]
      · simp [h1, h2, list_insert_replace_val rest key val]

theorem list_find_insert_self : ∀ (l : LL α) (rep : Bool) (key : Nat) (val : Entry α),
    list_find (list_insert l rep key val).1 key = some (list_insert l rep key val).2
  | LL.nil, rep, key, val => by simp [list_insert, list_find]
  | LL.cons hk hv rest, rep, key, val => by
    simp only [list_insert]
    by_cases h1 : key < hk
    · simp [h1, list_find]
    · by_cases h2 : key = hk
      · cases rep <;> simp [h1, h2, list_find]
      · have hne : hk ≠ key := fun h => h2 h.symm
        simp [h1, h2, list_find, hne, list_find_insert_self rest rep key val]

theorem list_find_insert_ne : ∀ (l : LL α) (rep : Bool) (key : Nat) (val : Entry α)
    (k' : Nat), k' ≠ key →
    list_find (list_insert l rep key val).1 k' = list_find l k'
  | LL.nil, rep, key, val, k', hne => by
    simp [list_insert, list_find, Ne.symm hne]
  | LL.cons hk hv rest, rep, key, val, k', hne => by
    simp only [list_insert]
    by_cases h1 : key < hk
    · simp [h1, list_find, Ne.symm hne]
    · by_cases h2 : key = hk
      · subst h2
        cases rep <;> simp [h1, list_find, Ne.symm hne]
      · by_cases h3 : hk = k'
        · subst h3
          simp [h1, h2, list_find]
        · simp [h1, h2, list_find, h3, list_find_insert_ne rest rep key val k' hne]

theorem find_none_of_keyLt : ∀ (l : LL α) (key : Nat), llSorted l = true →
    keyLt key l = true → list_find l key = none
  | LL.nil, _, _, _ => rfl
  | LL.cons hk hv rest, key, hs, hlt => by
    simp only [llSorted, Bool.and_eq_true] at hs
    simp only [keyLt, decide_eq_true_eq] at hlt
    have hkey : keyLt key rest = true := by
      cases rest with
      | nil => rfl
      | cons k2 v2 r2 =>
        simp only [keyLt, decide_eq_true_eq] at hs ⊢
        exact lt_trans hlt hs.1
    have : hk ≠ key := fun h => absurd (h ▸ hlt) (lt_irrefl _)
    simp [list_find, this, find_none_of_keyLt rest key hs.2 hkey]

theorem list_insert_found : ∀ (l : LL α) (key : Nat) (val w : Entry α),
    llSorted l = true → list_find l key = some w →
    list_insert l false key val = (l, w)
  | LL.nil, key, val, w, _, hf => by simp [list_find] at hf
  | LL.cons hk hv rest, key, val, w, hs, hf => by
    simp only [llSorted, Bool.and_eq_true] at hs
    by_cases h2 : hk = key
    · subst h2
      simp [list_find] at hf
      simp [list_insert, hf]
    · simp only [list_find, if_neg h2] at hf
      by_cases h1 : key < hk
      · have : keyLt key rest = true := by
          cases rest with
          | nil => rfl
          | cons k2 v2 r2 =>
            simp only [keyLt, decide_eq_true_eq] at hs ⊢
            exact lt_trans h1 hs.1
        rw [find_none_of_keyLt rest key hs.2 this] at hf
        exact absurd hf (by simp)
      · have heq := list_insert_found rest key val w hs.2 hf
        simp [list_insert, h1, Ne.symm h2, heq]

theorem list_insert_notfound_val : ∀ (l : LL α) (key : Nat) (val : Entry α),
    list_find l key = none → (list_insert l false key val).2 = val
  | LL.nil, key, val, _ => by simp [list_insert]
  | LL.cons hk hv rest, key, val, hf => by
    simp only [list_find] at hf
    by_cases h2 : hk = key
    · simp [h2] at hf
    · simp only [if_neg h2] at hf
      by_cases h1 : key < hk
      · simp [list_insert, h1]
      · simp [list_insert, h1, Ne.symm h2,
          list_insert_notfound_val rest key val hf]

theorem list_find_set_self : ∀ (l : LL α) (key : Nat) (val w : Entry α),
    list_find l key = some w → list_find (list_set l key val) key = some val
  | LL.nil, key, val, w, hf => by simp [list_find] at hf
  | LL.cons hk hv rest, key, val, w, hf => by
    by_cases h2 : hk = key
    · simp [list_set, list_find, h2]
    · simp only [list_find, if_neg h2] at hf
      simp [list_set, list_find, h2, list_find_set_self rest key val w hf]

theorem list_find_set_ne : ∀ (l : LL α) (key : Nat) (val : Entry α) (k' : Nat),
    k' ≠ key → list_find (list_set l key val) k' = list_find l k'
  | LL.nil, key, val, k', _ => rfl
  | LL.cons hk hv rest, key, val, k', hne => by
    by_cases h2 : hk = key
    · subst h2
      simp [list_set, list_find, Ne.symm hne]
    · by_cases h3 : hk = k'
      · subst h3
        simp [list_set, list_find, h2, hne]
      · simp [list_set, list_find, h2, h3, list_find_set_ne rest key val k' hne]

theorem list_remove_val : ∀ (l : LL α) (key : Nat),
    (list_remove l key).2 = list_find l key
  | LL.nil, key => rfl
  | LL.cons hk hv rest, key => by
    by_cases h2 : hk = key
    · simp [list_remove, list_find, h2]
    · simp [list_remove, list_find, h2, list_remove_val rest key]

theorem list_remove_notfound : ∀ (l : LL α) (key : Nat),
    list_find l key = none → (list_remove l key).1 = l
  | LL.nil, key, _ => rfl
  | LL.cons hk hv rest, key, hf => by
    simp only [list_find] at hf
    by_cases h2 : hk = key
    · simp [h2] at hf
    · simp only [if_neg h2] at hf
      simp [list_remove, h2, list_remove_notfound rest key hf]

/-! ## Lemmas about well-formedness -/

theorem wfBL_sorted : ∀ (l : LL α) (dims : List Nat),
    wfBL l dims = true → llSorted l = true
  | LL.nil, _, _ => rfl
  | LL.cons k e rest, dims, h => by
    cases dims with
    | nil => simp [wfBL] at h
    | cons d ds =>
      simp only [wfBL, Bool.and_eq_true] at h
      simp [llSorted, h.1.2, h.2, wfBL_sorted rest (d :: ds) h.2]

theorem wfBE_sub {e : Entry α} {d : Nat} {ds : List Nat}
    (h : wfBE e (d :: ds) = true) : ∃ t, e = Entry.sub t ∧ wfBL t (d :: ds) = true := by
  cases e with
  | elem a => simp [wfBE, List.isEmpty] at h
  | sub t => exact ⟨t, rfl, by simpa [wfBE] using h⟩

theorem wfBE_elem {e : Entry α} (h : wfBE e [] = true) : ∃ a, e = Entry.elem a := by
  cases e with
  | elem a => exact ⟨a, rfl⟩
  | sub t => simp [wfBE] at h

theorem wf_find : ∀ (l : LL α) (d : Nat) (ds : List Nat) (key : Nat) (e : Entry α),
    wfBL l (d :: ds) = true → list_find l key = some e → wfBE e ds = true
  | LL.nil, _, _, _, _, _, hf => by simp [list_find] at hf
  | LL.cons hk hv rest, d, ds, key, e, hw, hf => by
    simp only [wfBL, Bool.and_eq_true] at hw
    by_cases h2 : hk = key
    · simp only [list_find, if_pos h2, Option.some.injEq] at hf
      exact hf ▸ hw.1.1.2
    · simp only [list_find, if_neg h2] at hf
      exact wf_find rest d ds key e hw.2 hf

theorem inShape_cons {c d : Nat} {cs ds : List Nat} :
    inShape (c :: cs) (d :: ds) = true ↔ c < d ∧ inShape cs ds = true := by
  simp [inShape]

/-! ## Insert/get: round trip and frame -/

theorem insert_r_nil : ∀ (c : List Nat) (v : α), c ≠ [] →
    list_storage_insert_r v LL.nil c = some (freshPath v c, v)
  | [], _, h => absurd rfl h
  | [k], v, _ => by simp [list_storage_insert_r, list_insert, freshPath]
  | k :: k2 :: cs, v, _ => by
    simp only [list_storage_insert_r, list_insert]
    rw [insert_r_nil (k2 :: cs) v (by simp)]
    simp [freshPath, list_set]

theorem get_fresh (dflt : α) : ∀ (c : List Nat) (v : α), c ≠ [] →
    list_storage_get_r dflt (freshPath v c) c = some v
  | [], _, h => absurd rfl h
  | [k], v, _ => by simp [freshPath, list_storage_get_r, list_find]
  | k :: k2 :: cs, v, _ => by
    simp only [freshPath, list_storage_get_r, list_find, if_pos rfl]
    exact get_fresh dflt (k2 :: cs) v (by simp)

theorem insert_get_r (dflt : α) : ∀ (c : List Nat) (l : LL α) (dims : List Nat) (v : α),
    wfBL l dims = true → inShape c dims = true → c ≠ [] →
    ∃ l2, list_storage_insert_r v l c = some (l2, v) ∧
      list_storage_get_r dflt l2 c = some v
  | [], _, _, _, _, _, h => absurd rfl h
  | [k], l, dims, v, _, _, _ => by
    refine ⟨(list_insert l true k (Entry.elem v)).1, ?_, ?_⟩
    · simp [list_storage_insert_r, list_insert_replace_val]
    · simp [list_storage_get_r, list_find_insert_self, list_insert_replace_val]
  | k :: k2 :: cs, l, dims, v, hw, hin, _ => by
    cases dims with
    | nil => simp [inShape] at hin
    | cons d ds =>
      simp only [inShape, Bool.and_eq_true, decide_eq_true_eq] at hin
      have hsort := wfBL_sorted l (d :: ds) hw
      cases ds with
      | nil => simp [inShape] at hin
      | cons d2 ds2 =>
        cases hds : list_find l k with
        | some e =>
          obtain ⟨t, rfl, hwt⟩ := wfBE_sub (wf_find l d (d2 :: ds2) k e hw hds)
          have hfound := list_insert_found l k (Entry.sub LL.nil) (Entry.sub t) hsort hds
          obtain ⟨t2, hrec, hget⟩ :=
            insert_get_r dflt (k2 :: cs) t (d2 :: ds2) v hwt hin.2 (by simp)
          refine ⟨list_set l k (Entry.sub t2), ?_, ?_⟩
          · simp only [list_storage_insert_r, hfound, hrec]
          · simp only [list_storage_get_r]
            rw [list_find_set_self l k (Entry.sub t2) (Entry.sub t) hds]
            exact hget
        | none =>
          have hval := list_insert_notfound_val l k (Entry.sub LL.nil) hds
          refine ⟨list_set (list_insert l false k (Entry.sub LL.nil)).1 k
            (Entry.sub (freshPath v (k2 :: cs))), ?_, ?_⟩
          · simp only [list_storage_insert_r, hval, insert_r_nil (k2 :: cs) v (by simp)]
          · have hfindp : list_find (list_insert l false k (Entry.sub LL.nil)).1 k
                = some (Entry.sub LL.nil) := by
              rw [list_find_insert_self l false k (Entry.sub LL.nil), hval]
            simp only [list_storage_get_r]
            rw [list_find_set_self _ k _ _ hfindp]
            exact get_fresh dflt (k2 :: cs) v (by simp)

theorem get_fresh_ne (dflt : α) : ∀ (c c' : List Nat) (v : α) (dims : List Nat),
    inShape c dims = true → inShape c' dims = true → c ≠ c' →
    list_storage_get_r dflt (freshPath v c) c' = some dflt
  | [], [], _, dims, _, _, hne => absurd rfl hne
  | [], c2 :: cs', _, dims, hin, hin', _ => by
    cases dims <;> simp [inShape] at hin hin'
  | c1 :: cs, [], _, dims, hin, hin', _ => by
    cases dims <;> simp [inShape] at hin hin'
  | [k], k' :: c2' :: cs', v, dims, hin, hin', _ => by
    cases dims with
    | nil => simp [inShape] at hin
    | cons d ds => cases ds <;> simp [inShape] at hin hin'
  | k :: k2 :: cs, [k'], v, dims, hin, hin', _ => by
    cases dims with
    | nil => simp [inShape] at hin
    | cons d ds => cases ds <;> simp [inShape] at hin hin'
  | [k], [k'], v, dims, _, _, hne => by
    have : k ≠ k' := fun h => hne (h ▸ rfl)
    simp [freshPath, list_storage_get_r, list_find, this]
  | k :: k2 :: cs, k' :: k2' :: cs', v, dims, hin, hin', hne => by
    cases dims with
    | nil => simp [inShape] at hin
    | cons d ds =>
      simp only [inShape, Bool.and_eq_true, decide_eq_true_eq] at hin hin'
      by_cases hk : k = k'
      · subst hk
        have htail : (k2 :: cs) ≠ (k2' :: cs') := by
          intro h; exact hne (by rw [h])
        simp only [freshPath, list_storage_get_r, list_find, if_pos rfl]
        exact get_fresh_ne dflt (k2 :: cs) (k2' :: cs') v ds hin.2 hin'.2 htail
      · simp [freshPath, list_storage_get_r, list_find, hk]

theorem insert_frame_r (dflt : α) : ∀ (c c' : List Nat) (l : LL α) (dims : List Nat) (v : α),
    wfBL l dims = true → inShape c dims = true → inShape c' dims = true → c ≠ c' →
    ∀ l2 r, list_storage_insert_r v l c = some (l2, r) →
    list_storage_get_r dflt l2 c' = list_storage_get_r dflt l c'
  | [], _, _, _, _, _, _, _, _, l2, r, hins => by simp [list_storage_insert_r] at hins
  | [k], c', l, dims, v, hw, hin, hin', hne, l2, r, hins => by
    cases dims with
    | nil => simp [inShape] at hin
    | cons d ds =>
      cases ds with
      | cons d2 ds2 => simp [inShape] at hin
      | nil =>
        match c', hin', hne with
        | [], hin', _ => simp [inShape] at hin'
        | k' :: c2' :: cs', hin', _ => simp [inShape] at hin'
        | [k'], hin', hne =>
          have hkk : k' ≠ k := fun h => hne (by rw [h])
          simp only [list_storage_insert_r, list_insert_replace_val,
            Option.some.injEq, Prod.mk.injEq] at hins
          obtain ⟨hl2, _⟩ := hins
          subst hl2
          simp only [list_storage_get_r]
          rw [list_find_insert_ne l true k (Entry.elem v) k' hkk]
  | k :: k2 :: cs, c', l, dims, v, hw, hin, hin', hne, l2, r, hins => by
    cases dims with
    | nil => simp [inShape] at hin
    | cons d ds =>
      cases ds with
      | nil => simp [inShape] at hin
      | cons d2 ds2 =>
        rw [inShape_cons] at hin
        have hsort := wfBL_sorted l (d :: d2 :: ds2) hw
        match c', hin', hne with
        | [], hin', _ => simp [inShape] at hin'
        | [k'], hin', _ => simp [inShape] at hin'
        | k' :: a :: as, hin', hne =>
          rw [inShape_cons] at hin'
          cases hds : list_find l k with
          | some e =>
            obtain ⟨t, rfl, hwt⟩ := wfBE_sub (wf_find l d (d2 :: ds2) k e hw hds)
            have hfound := list_insert_found l k (Entry.sub LL.nil) (Entry.sub t) hsort hds
            simp only [list_storage_insert_r, hfound] at hins
            cases hrec : list_storage_insert_r v t (k2 :: cs) with
            | none => rw [hrec] at hins; simp at hins
            | some p =>
              rw [hrec] at hins
              simp only [Option.some.injEq, Prod.mk.injEq] at hins
              obtain ⟨hl2, _⟩ := hins
              subst hl2
              by_cases hk : k' = k
              · subst hk
                have htail : (k2 :: cs) ≠ (a :: as) := by
                  intro h; exact hne (by rw [h])
                simp only [list_storage_get_r]
                rw [list_find_set_self l k' (Entry.sub p.1) (Entry.sub t) hds, hds]
                exact insert_frame_r dflt (k2 :: cs) (a :: as) t (d2 :: ds2) v hwt
                  hin.2 hin'.2 htail p.1 p.2 hrec
              · simp only [list_storage_get_r]
                rw [list_find_set_ne l k (Entry.sub p.1) k' hk]
          | none =>
            have hval := list_insert_notfound_val l k (Entry.sub LL.nil) hds
            simp only [list_storage_insert_r, hval,
              insert_r_nil (k2 :: cs) v (by simp), Option.some.injEq, Prod.mk.injEq] at hins
            obtain ⟨hl2, _⟩ := hins
            subst hl2
            by_cases hk : k' = k
            · subst hk
              have htail : (k2 :: cs) ≠ (a :: as) := by
                intro h; exact hne (by rw [h])
              have hfindp : list_find (list_insert l false k' (Entry.sub LL.nil)).1 k'
                  = some (Entry.sub LL.nil) := by
                rw [list_find_insert_self l false k' (Entry.sub LL.nil), hval]
              simp only [list_storage_get_r]
              rw [list_find_set_self _ k' _ _ hfindp, hds]
              exact get_fresh_ne dflt (k2 :: cs) (a :: as) v (d2 :: ds2)
                hin.2 hin'.2 htail
            · simp only [list_storage_get_r]
              rw [list_find_set_ne _ k (Entry.sub (freshPath v (k2 :: cs))) k' hk,
                list_find_insert_ne l false k (Entry.sub LL.nil) k' hk]

/-! ## Miss lemmas: default fallback and remove-miss atomicity -/

theorem findMiss_get (dflt : α) : ∀ (l : LL α) (c : List Nat),
    findMiss l c = true → list_storage_get_r dflt l c = some dflt
  | _, [] => by simp [findMiss]
  | l, [k] => by
    intro h
    cases hf : list_find l k with
    | none => simp [list_storage_get_r, hf]
    | some e =>
      cases e with
      | elem a => simp [findMiss, hf] at h
      | sub t => simp [findMiss, hf] at h
  | l, k :: k2 :: cs => by
    intro h
    cases hf : list_find l k with
    | none => simp [list_storage_get_r, hf]
    | some e =>
      cases e with
      | elem a => simp [findMiss, hf] at h
      | sub t =>
        have ht : findMiss t (k2 :: cs) = true := by simpa [findMiss, hf] using h
        simp [list_storage_get_r, hf, findMiss_get dflt t (k2 :: cs) ht]

theorem findMiss_descend : ∀ (l : LL α) (c : List Nat),
    findMiss l c = true → descend l c = none
  | _, [] => by simp [findMiss]
  | l, k :: cs => by
    intro h
    cases hf : list_find l k with
    | none => simp [descend, hf]
    | some e =>
      cases e with
      | elem a => simp [findMiss, hf] at h
      | sub t =>
        have ht : findMiss t cs = true := by simpa [findMiss, hf] using h
        simp [descend, hf, findMiss_descend t cs ht]

theorem splitLast_dropLast : ∀ (c : List Nat), c ≠ [] →
    ∃ lastk, splitLast c = some (c.dropLast, lastk)
  | [], h => absurd rfl h
  | [k], _ => ⟨k, by simp [splitLast]⟩
  | k :: k2 :: cs, _ => by
    obtain ⟨lastk, h⟩ := splitLast_dropLast (k2 :: cs) (by simp)
    exact ⟨lastk, by simp [splitLast, h]⟩

/-! ## Claim theorems: C1, C6, C7, C10 -/

/-- Claim C1 (get/insert round trip): on a well-formed container, for every
coordinate tuple within the shape and every value `v`,
`list_storage_insert(s, c, v)` succeeds, returns `v` as the value now stored
(the final-level insert overwrites any prior terminal value at `c`), and a
subsequent `list_storage_get` at `c` returns `v`. -/
theorem claim_C1 [DecidableEq α] (s : LIST_STORAGE α) (c : List Nat) (v : α)
    (hwf : wfBL s.rows s.shape = true) (hin : inShape c s.shape = true)
    (hrank : 1 ≤ s.rank) (hlen : s.shape.length = s.rank) :
    ∃ s2, list_storage_insert s c v = some (s2, v) ∧
      list_storage_get s2 c = some v := by
  have hc : c ≠ [] := by
    intro h
    subst h
    cases hs : s.shape with
    | nil => rw [hs] at hlen; simp at hlen; omega
    | cons d ds => rw [hs] at hin; simp [inShape] at hin
  obtain ⟨l2, h1, h2⟩ := insert_get_r s.default_val c s.rows s.shape v hwf hin hc
  exact ⟨{ s with rows := l2 }, by simp [list_storage_insert, h1],
    by simpa [list_storage_get] using h2⟩

/-- Witness for C1: the concrete container of the spec's scenario. -/
theorem claim_C1_witness :
    ∃ s2, list_storage_insert (list_storage_create [3, 3] 2 (0 : Nat)) [1, 2] 7
        = some (s2, 7) ∧ list_storage_get s2 [1, 2] = some 7 :=
  claim_C1 (list_storage_create [3, 3] 2 0) [1, 2] 7 (by decide) (by decide)
    (by decide) (by decide)

/-- Claim C6 (remove miss is atomic): if the lookup of the coordinate tuple
fails at any intermediate level of the descent, `list_storage_remove` returns
the not-found signal and the container is left unchanged — every `get` on
every coordinate returns the same value as before. -/
theorem claim_C6 (s : LIST_STORAGE α) (c : List Nat)
    (hmiss : findMiss s.rows c.dropLast = true) :
    list_storage_remove s c = (s, none) ∧
      ∀ c2, list_storage_get (list_storage_remove s c).1 c2 = list_storage_get s c2 := by
  have hc : c ≠ [] := by
    intro h
    subst h
    simp [findMiss] at hmiss
  obtain ⟨lastk, hsplit⟩ := splitLast_dropLast c hc
  have hdesc := findMiss_descend s.rows c.dropLast hmiss
  have hrm : list_storage_remove s c = (s, none) := by
    simp [list_storage_remove, hsplit, hdesc]
  exact ⟨hrm, fun c2 => by rw [hrm]⟩

/-- Witness for C6: removing at a row that was never created. -/
theorem claim_C6_witness :
    list_storage_remove (list_storage_create [2, 2] 2 (0 : Nat)) [1, 1]
        = (list_storage_create [2, 2] 2 (0 : Nat), none) ∧
      ∀ c2, list_storage_get
          (list_storage_remove (list_storage_create [2, 2] 2 (0 : Nat)) [1, 1]).1 c2
        = list_storage_get (list_storage_create [2, 2] 2 (0 : Nat)) c2 :=
  claim_C6 (list_storage_create [2, 2] 2 0) [1, 1] (by decide)

/-- Claim C7 (default fallback on get): a failed `find` at any level of the
descent makes `list_storage_get` return the container's default immediately;
and on a freshly created container (no insertions) `get` returns the default
at every non-empty coordinate tuple. -/
theorem claim_C7 (s : LIST_STORAGE α) (c : List Nat) (shape2 : List Nat)
    (rank2 : Nat) (d : α) (c' : List Nat)
    (hmiss : findMiss s.rows c = true) (hc' : c' ≠ []) :
    list_storage_get s c = some s.default_val ∧
      list_storage_get (list_storage_create shape2 rank2 d) c' = some d := by
  refine ⟨findMiss_get s.default_val s.rows c hmiss, ?_⟩
  cases c' with
  | nil => exact absurd rfl hc'
  | cons k cs =>
    cases cs <;>
      simp [list_storage_create, list_storage_get, list_storage_get_r, list_find]

/-- Witness for C7 at concrete inputs. -/
theorem claim_C7_witness :
    list_storage_get
        (⟨2, [2, 2], (9 : Nat), LL.cons 0 (Entry.sub LL.nil) LL.nil⟩ : LIST_STORAGE Nat)
        [1, 0] = some 9 ∧
      list_storage_get (list_storage_create [5] 1 (3 : Nat)) [4] = some 3 :=
  claim_C7 (⟨2, [2, 2], 9, LL.cons 0 (Entry.sub LL.nil) LL.nil⟩ : LIST_STORAGE Nat)
    [1, 0] [5] 1 3 [4] (by decide) (by decide)

/-- Claim C10 (insert frame property): on a well-formed container, inserting
at `c` leaves the effective value at every other in-shape coordinate `c'`
unchanged, and does not touch rank, shape, or default value. -/
theorem claim_C10 [DecidableEq α] (s : LIST_STORAGE α) (c c' : List Nat) (v : α)
    (hwf : wfBL s.rows s.shape = true) (hin : inShape c s.shape = true)
    (hin' : inShape c' s.shape = true) (hne : c ≠ c') :
    ∀ s2 r, list_storage_insert s c v = some (s2, r) →
      list_storage_get s2 c' = list_storage_get s c' ∧
        s2.rank = s.rank ∧ s2.shape = s.shape ∧ s2.default_val = s.default_val := by
  intro s2 r hins
  cases hr : list_storage_insert_r v s.rows c with
  | none => simp [list_storage_insert, hr] at hins
  | some p =>
    have hs2 : s2 = { s with rows := p.1 } := by
      simp [list_storage_insert, hr] at hins
      exact hins.1.symm
    subst hs2
    refine ⟨?_, rfl, rfl, rfl⟩
    simpa [list_storage_get] using
      insert_frame_r s.default_val c c' s.rows s.shape v hwf hin hin' hne p.1 p.2 hr

/-- Witness for C10: insert at (0,0), observe (1,1) and the metadata. -/
theorem claim_C10_witness :
    list_storage_insert (list_storage_create [2, 2] 2 (0 : Nat)) [0, 0] 5
        = some (⟨2, [2, 2], 0,
            LL.cons 0 (Entry.sub (LL.cons 0 (Entry.elem 5) LL.nil)) LL.nil⟩, 5) ∧
      (list_storage_get
            (⟨2, [2, 2], 0,
              LL.cons 0 (Entry.sub (LL.cons 0 (Entry.elem 5) LL.nil)) LL.nil⟩ :
              LIST_STORAGE Nat) [1, 1]
          = list_storage_get (list_storage_create [2, 2] 2 (0 : Nat)) [1, 1] ∧
        (⟨2, [2, 2], 0,
            LL.cons 0 (Entry.sub (LL.cons 0 (Entry.elem 5) LL.nil)) LL.nil⟩ :
            LIST_STORAGE Nat).rank
          = (list_storage_create [2, 2] 2 (0 : Nat)).rank ∧
        (⟨2, [2, 2], 0,
            LL.cons 0 (Entry.sub (LL.cons 0 (Entry.elem 5) LL.nil)) LL.nil⟩ :
            LIST_STORAGE Nat).shape
          = (list_storage_create [2, 2] 2 (0 : Nat)).shape ∧
        (⟨2, [2, 2], 0,
            LL.cons 0 (Entry.sub (LL.cons 0 (Entry.elem 5) LL.nil)) LL.nil⟩ :
            LIST_STORAGE Nat).default_val
          = (list_storage_create [2, 2] 2 (0 : Nat)).default_val) :=
  ⟨by decide,
    claim_C10 (list_storage_create [2, 2] 2 0) [0, 0] [1, 1] 5 (by decide)
      (by decide) (by decide) (by decide)
      (⟨2, [2, 2], 0,
        LL.cons 0 (Entry.sub (LL.cons 0 (Entry.elem 5) LL.nil)) LL.nil⟩ :
        LIST_STORAGE Nat) 5 (by decide)⟩

/-! ## Claim theorems: C2, C3, C4 (evaluations of the code at failing inputs) -/

/-- Claim C2 (pruning after removal) — evaluation at the failing input.  On a
rank-2 container, after inserting at (0,0) into an empty container and
removing it, the removal does return the stored value and the terminal level
is emptied, but the intermediate `List` created to reach the coordinate is
*not* released: the root list still holds one node (count 1 at the root
nesting level) owning an empty sub-list.  The back-walk executes
`free(list_remove(stack[r]->val, slice->coords[r]))`, removing `coords[r]`
from the just-emptied *child* list (a no-op) instead of removing the child's
owning node from the parent level, so pruning never removes anything. -/
theorem claim_C2_bug_eval :
    (list_storage_insert (list_storage_create [2, 2] 2 (0 : Nat)) [0, 0] 5).map
        (fun p => ((list_storage_remove p.1 [0, 0]).1.rows,
                   (list_storage_remove p.1 [0, 0]).2,
                   list_storage_count_elements_r (list_storage_remove p.1 [0, 0]).1.rows 0))
      = some (LL.cons 0 (Entry.sub LL.nil) LL.nil, some (Entry.elem 5), 1) := by
  decide

/-- Claim C3 (dense round trip) — evaluation at the failing input.  For the
rank-3 dense array of shape [1,1,1] holding the single (non-zero) element 5,
`list_storage_from_dense` produces an *empty* tree, and `get` at (0,0,0)
returns the default 0 rather than 5: at recursion depths above 0 the `added`
flag is never propagated (`added = (added || added_list)` is commented out in
the source), so every sub-list built at depth ≥ 2 is reported as empty and
deleted by its caller. -/
theorem claim_C3_bug_eval :
    (list_storage_from_dense
        ({ rank := 3, shape := [1, 1, 1], elements := [5] } : DENSE_STORAGE Nat) 0).rows
        = LL.nil ∧
      list_storage_get
          (list_storage_from_dense
            ({ rank := 3, shape := [1, 1, 1], elements := [5] } : DENSE_STORAGE Nat) 0)
          [0, 0, 0] = some 0 ∧
      ({ rank := 3, shape := [1, 1, 1], elements := [5] } : DENSE_STORAGE Nat).elements
          = [5] := by
  decide

/-- Claim C4 (ascending-key invariant) — evaluation at the failing input.  For
a Yale source with non-zero diagonal entries in rows 0 and 1 and no
off-diagonal entries, `list_storage_from_yale` produces a row-level list with
keys in *descending* order [1, 0]: rows are processed from the highest index
downward (`for (i = rhs->shape[0]; i-- > 0;)`) while each created row is
attached with `list_insert_after` at the cursor of the previously attached
row, i.e. appended, violating the strict-ascending-key invariant. -/
theorem claim_C4_bug_eval :
    (list_storage_from_yale
        ({ rank := 2, shape := [2, 2], a := [7, 9, 0], ija := [3, 3, 3] } :
          YALE_STORAGE Nat)).map (fun s => (llKeys s.rows, llSorted s.rows))
      = some ([1, 0], false) := by
  decide

/-! ## Claim C9: unsupported-rank errors and the non-diagonal count -/

theorem ndRow_eq : ∀ (t : LL α) (d1 i : Nat), wfBL t [d1] = true →
    ndRow i t = (((llCoords t).map (i :: ·)).filter ndPred).length
  | LL.nil, _, _, _ => rfl
  | LL.cons j e rest, d1, i, hw => by
    simp only [wfBL, Bool.and_eq_true] at hw
    obtain ⟨a, rfl⟩ := wfBE_elem hw.1.1.2
    have ih := ndRow_eq rest d1 i hw.2
    by_cases hij : i = j
    · subst hij
      simp [llCoords, entryCoords, ndRow, ndPred, ih]
    · simp [llCoords, entryCoords, ndRow, ndPred, hij, ih]
      omega

theorem ndWalk_eq : ∀ (l : LL α) (d0 d1 : Nat), wfBL l [d0, d1] = true →
    ndWalk l = ((llCoords l).filter ndPred).length
  | LL.nil, _, _, _ => rfl
  | LL.cons i e rest, d0, d1, hw => by
    simp only [wfBL, Bool.and_eq_true] at hw
    obtain ⟨t, rfl, hwt⟩ := wfBE_sub hw.1.1.2
    simp only [ndWalk, llCoords, entryCoords]
    rw [List.filter_append, List.length_append,
      ndRow_eq t d1 i hwt, ndWalk_eq rest d0 d1 hw.2]

/-- Claim C9 (unsupported-rank errors): `count_list_storage_nd_elements`
raises (modelled `none`) iff the container's rank is not 2, and
`list_storage_from_yale` raises iff the source's rank is not 2; at rank 2 both
complete, and the non-diagonal count is exactly the number of stored
coordinate pairs whose row key differs from their column key. -/
theorem claim_C9 [DecidableEq α] [Inhabited α] (s : LIST_STORAGE α)
    (y : YALE_STORAGE α) (hwf : wfBL s.rows s.shape = true)
    (hs2 : s.shape.length = 2) :
    ((count_list_storage_nd_elements s).isSome ↔ s.rank = 2) ∧
      ((list_storage_from_yale y).isSome ↔ y.rank = 2) ∧
      (s.rank = 2 → count_list_storage_nd_elements s
          = some (((llCoords s.rows).filter ndPred).length)) := by
  refine ⟨?_, ?_, ?_⟩
  · by_cases h : s.rank = 2 <;> simp [count_list_storage_nd_elements, h]
  · by_cases h : y.rank = 2 <;> simp [list_storage_from_yale, h]
  · intro h
    obtain ⟨d0, d1, hsh⟩ := List.length_eq_two.mp hs2
    rw [hsh] at hwf
    simp [count_list_storage_nd_elements, h, ndWalk_eq s.rows d0 d1 hwf]

/-- Witness for C9: a rank-2 container storing entries (0,0), (0,2), (1,1)
(one off-diagonal) and a rank-2 Yale source. -/
theorem claim_C9_witness :
    ((count_list_storage_nd_elements
          (⟨2, [3, 3], (0 : Nat),
            LL.cons 0 (Entry.sub (LL.cons 0 (Entry.elem 1)
                (LL.cons 2 (Entry.elem 2) LL.nil)))
              (LL.cons 1 (Entry.sub (LL.cons 1 (Entry.elem 3) LL.nil)) LL.nil)⟩ :
            LIST_STORAGE Nat)).isSome ↔
        (⟨2, [3, 3], (0 : Nat),
            LL.cons 0 (Entry.sub (LL.cons 0 (Entry.elem 1)
                (LL.cons 2 (Entry.elem 2) LL.nil)))
              (LL.cons 1 (Entry.sub (LL.cons 1 (Entry.elem 3) LL.nil)) LL.nil)⟩ :
            LIST_STORAGE Nat).rank = 2) ∧
      ((list_storage_from_yale
          ({ rank := 2, shape := [2, 2], a := [7, 9, 0], ija := [3, 3, 3] } :
            YALE_STORAGE Nat)).isSome ↔
        ({ rank := 2, shape := [2, 2], a := [7, 9, 0], ija := [3, 3, 3] } :
            YALE_STORAGE Nat).rank = 2) ∧
      ((⟨2, [3, 3], (0 : Nat),
            LL.cons 0 (Entry.sub (LL.cons 0 (Entry.elem 1)
                (LL.cons 2 (Entry.elem 2) LL.nil)))
              (LL.cons 1 (Entry.sub (LL.cons 1 (Entry.elem 3) LL.nil)) LL.nil)⟩ :
            LIST_STORAGE Nat).rank = 2 →
        count_list_storage_nd_elements
            (⟨2, [3, 3], (0 : Nat),
              LL.cons 0 (Entry.sub (LL.cons 0 (Entry.elem 1)
                  (LL.cons 2 (Entry.elem 2) LL.nil)))
                (LL.cons 1 (Entry.sub (LL.cons 1 (Entry.elem 3) LL.nil)) LL.nil)⟩ :
              LIST_STORAGE Nat)
          = some (((llCoords
              (⟨2, [3, 3], (0 : Nat),
                LL.cons 0 (Entry.sub (LL.cons 0 (Entry.elem 1)
                    (LL.cons 2 (Entry.elem 2) LL.nil)))
                  (LL.cons 1 (Entry.sub (LL.cons 1 (Entry.elem 3) LL.nil)) LL.nil)⟩ :
                LIST_STORAGE Nat).rows).filter ndPred).length)) :=
  claim_C9 _ _ (by decide) (by decide)

/-! ## Coordinates and lookup lemmas (towards the equality engine) -/

theorem llLookup_eq_find : ∀ (l : LL α) (key : Nat) (cs : List Nat),
    llLookup l (key :: cs) =
      (match list_find l key with
       | some e => entryLookup e cs
       | none => none)
  | LL.nil, _, _ => rfl
  | LL.cons k e rest, key, cs => by
    by_cases h : k = key
    · simp [llLookup, list_find, h]
    · simp [llLookup, list_find, h, llLookup_eq_find rest key cs]

theorem coords_head : ∀ (l : LL α) (c : List Nat), c ∈ llCoords l →
    ∃ k cs, c = k :: cs ∧ k ∈ llKeys l
  | LL.nil, c, h => by simp [llCoords] at h
  | LL.cons k e rest, c, h => by
    simp only [llCoords, List.mem_append, List.mem_map] at h
    cases h with
    | inl h =>
      obtain ⟨cs, _, hc⟩ := h
      exact ⟨k, cs, hc.symm, by simp [llKeys]⟩
    | inr h =>
      obtain ⟨k', cs', hc, hk⟩ := coords_head rest c h
      exact ⟨k', cs', hc, by simp [llKeys, hk]⟩

theorem keys_gt : ∀ (rest : LL α) (k : Nat), keyLt k rest = true →
    llSorted rest = true → ∀ k' ∈ llKeys rest, k < k'
  | LL.nil, _, _, _, k', h => by simp [llKeys] at h
  | LL.cons k2 e2 r2, k, hlt, hs, k', h => by
    simp only [llKeys, List.mem_cons] at h
    simp only [keyLt, decide_eq_true_eq] at hlt
    simp only [llSorted, Bool.and_eq_true] at hs
    cases h with
    | inl h => exact h ▸ hlt
    | inr h =>
      have h2 : keyLt k r2 = true := by
        cases r2 with
        | nil => rfl
        | cons k3 e3 r3 =>
          simp only [keyLt, decide_eq_true_eq] at hs ⊢
          exact lt_trans hlt hs.1
      exact keys_gt r2 k h2 hs.2 k' h

theorem lookup_keyLt_none (l : LL α) (key : Nat) (cs : List Nat)
    (hs : llSorted l = true) (hlt : keyLt key l = true) :
    llLookup l (key :: cs) = none := by
  rw [llLookup_eq_find, find_none_of_keyLt l key hs hlt]

/-- Skip the head node of a sorted chain when looking up a coordinate stored
in the tail (whose first component is necessarily larger than the head key). -/
theorem lookup_cons_of_mem_rest {k : Nat} {e : Entry α} {rest : LL α}
    (hlt : keyLt k rest = true) (hsr : llSorted rest = true)
    {c : List Nat} (hm : c ∈ llCoords rest) :
    llLookup (LL.cons k e rest) c = llLookup rest c := by
  obtain ⟨k', cs', hc, hk'⟩ := coords_head rest c hm
  subst hc
  have hne : k ≠ k' := Nat.ne_of_lt (keys_gt rest k hlt hsr k' hk')
  simp [llLookup, hne]

mutual

theorem entryLookup_some_mem : ∀ (e : Entry α) (c : List Nat) (x : α),
    entryLookup e c = some x → c ∈ entryCoords e
  | Entry.elem a, [], x, _ => by simp [entryCoords]
  | Entry.elem a, _ :: _, x, h => by simp [entryLookup] at h
  | Entry.sub t, [], x, h => by simp [entryLookup] at h
  | Entry.sub t, c :: cs, x, h => by
    simp only [entryCoords]
    exact llLookup_some_mem t (c :: cs) x h

theorem llLookup_some_mem : ∀ (l : LL α) (c : List Nat) (x : α),
    llLookup l c = some x → c ∈ llCoords l
  | LL.nil, c, x, h => by simp [llLookup] at h
  | LL.cons k e rest, [], x, h => by simp [llLookup] at h
  | LL.cons k e rest, key :: cs, x, h => by
    simp only [llCoords, List.mem_append, List.mem_map]
    by_cases hk : k = key
    · subst hk
      simp only [llLookup, if_pos rfl] at h
      exact Or.inl ⟨cs, entryLookup_some_mem e cs x h, rfl⟩
    · simp only [llLookup, if_neg hk] at h
      exact Or.inr (llLookup_some_mem rest (key :: cs) x h)

end

mutual

theorem entry_mem_lookup : ∀ (e : Entry α) (ds : List Nat) (c : List Nat),
    wfBE e ds = true → c ∈ entryCoords e → ∃ x, entryLookup e c = some x
  | Entry.elem a, ds, c, _, hm => by
    simp only [entryCoords, List.mem_singleton] at hm
    exact hm ▸ ⟨a, rfl⟩
  | Entry.sub t, ds, c, hw, hm => by
    simp only [entryCoords] at hm
    simp only [wfBE, Bool.and_eq_true] at hw
    obtain ⟨k, cs, hc, _⟩ := coords_head t c hm
    obtain ⟨x, hx⟩ := ll_mem_lookup t ds c hw.2 hm
    subst hc
    exact ⟨x, by simpa [entryLookup] using hx⟩

theorem ll_mem_lookup : ∀ (l : LL α) (dims : List Nat) (c : List Nat),
    wfBL l dims = true → c ∈ llCoords l → ∃ x, llLookup l c = some x
  | LL.nil, _, c, _, hm => by simp [llCoords] at hm
  | LL.cons k e rest, dims, c, hw, hm => by
    cases dims with
    | nil => simp [wfBL] at hw
    | cons d ds =>
      simp only [wfBL, Bool.and_eq_true] at hw
      simp only [llCoords, List.mem_append, List.mem_map] at hm
      cases hm with
      | inl hm =>
        obtain ⟨cs, hcs, hc⟩ := hm
        obtain ⟨x, hx⟩ := entry_mem_lookup e ds cs hw.1.1.2 hcs
        exact ⟨x, by rw [← hc]; simp [llLookup, hx]⟩
      | inr hm =>
        obtain ⟨x, hx⟩ := ll_mem_lookup rest (d :: ds) c hw.2 hm
        rw [lookup_cons_of_mem_rest hw.1.2 (wfBL_sorted rest _ hw.2) hm]
        exact ⟨x, hx⟩

end

mutual

theorem entryCoords_nodup : ∀ (e : Entry α) (ds : List Nat),
    wfBE e ds = true → (entryCoords e).Nodup
  | Entry.elem a, _, _ => by simp [entryCoords]
  | Entry.sub t, ds, hw => by
    simp only [wfBE, Bool.and_eq_true] at hw
    exact llCoords_nodup t ds hw.2

theorem llCoords_nodup : ∀ (l : LL α) (dims : List Nat),
    wfBL l dims = true → (llCoords l).Nodup
  | LL.nil, _, _ => by simp [llCoords]
  | LL.cons k e rest, dims, hw => by
    cases dims with
    | nil => simp [wfBL] at hw
    | cons d ds =>
      simp only [wfBL, Bool.and_eq_true] at hw
      simp only [llCoords]
      refine List.Nodup.append ?_ (llCoords_nodup rest (d :: ds) hw.2) ?_
      · refine List.Nodup.map ?_ (entryCoords_nodup e ds hw.1.1.2)
        intro a b h
        injection h
      · intro c hc1 hc2
        simp only [List.mem_map] at hc1
        obtain ⟨cs, _, hc⟩ := hc1
        obtain ⟨k', cs', hc', hk'⟩ := coords_head rest c hc2
        rw [← hc] at hc'
        have hkk : k < k' :=
          keys_gt rest k hw.1.2 (wfBL_sorted rest _ hw.2) k' hk'
        have : k = k' := by injection hc'
        omega

end

mutual

theorem entryCoords_inShape : ∀ (e : Entry α) (ds : List Nat) (c : List Nat),
    wfBE e ds = true → c ∈ entryCoords e → inShape c ds = true
  | Entry.elem a, ds, c, hw, hm => by
    simp only [entryCoords, List.mem_singleton] at hm
    simp only [wfBE] at hw
    cases ds with
    | nil => simp [hm, inShape]
    | cons d2 ds2 => simp [List.isEmpty] at hw
  | Entry.sub t, ds, c, hw, hm => by
    simp only [entryCoords] at hm
    simp only [wfBE, Bool.and_eq_true] at hw
    exact llCoords_inShape t ds c hw.2 hm

theorem llCoords_inShape : ∀ (l : LL α) (dims : List Nat) (c : List Nat),
    wfBL l dims = true → c ∈ llCoords l → inShape c dims = true
  | LL.nil, _, c, _, hm => by simp [llCoords] at hm
  | LL.cons k e rest, dims, c, hw, hm => by
    cases dims with
    | nil => simp [wfBL] at hw
    | cons d ds =>
      simp only [wfBL, Bool.and_eq_true] at hw
      simp only [llCoords, List.mem_append, List.mem_map] at hm
      cases hm with
      | inl hm =>
        obtain ⟨cs, hcs, hc⟩ := hm
        subst hc
        rw [inShape_cons]
        exact ⟨by simpa using hw.1.1.1, entryCoords_inShape e ds cs hw.1.1.2 hcs⟩
      | inr hm => exact llCoords_inShape rest (d :: ds) c hw.2 hm

end

/-! ## Correctness of the one-sided equality walk (`list_eqeq_value`) -/

theorem value_walk [DecidableEq α] (v : α) :
    ∀ (l : LL α) (d : Nat) (ds : List Nat) (checked : Nat), wfBL l (d :: ds) = true →
    (((list_eqeq_value l v ds.length checked).1 = true ↔
        ∀ c ∈ llCoords l, llLookup l c = some v) ∧
      ((list_eqeq_value l v ds.length checked).1 = true →
        (list_eqeq_value l v ds.length checked).2 = checked + (llCoords l).length))
  | LL.nil, d, ds, checked, _ => by
    simp [list_eqeq_value, llCoords]
  | LL.cons k e rest, d, ds, checked, hw => by
    have hw' := hw
    simp only [wfBL, Bool.and_eq_true] at hw'
    have hsrest := wfBL_sorted rest _ hw'.2
    cases ds with
    | nil =>
      obtain ⟨a, rfl⟩ := wfBE_elem hw'.1.1.2
      have IH := value_walk v rest d [] (checked + 1) hw'.2
      simp only [List.length_nil] at IH
      by_cases ha : a = v
      · subst ha
        have hred : list_eqeq_value (LL.cons k (Entry.elem a) rest) a
              ([] : List Nat).length checked
            = list_eqeq_value rest a 0 (checked + 1) := by
          simp [list_eqeq_value]
        rw [hred]
        constructor
        · rw [IH.1]
          constructor
          · intro hall c hc
            simp only [llCoords, entryCoords, List.mem_append, List.mem_map,
              List.mem_singleton] at hc
            rcases hc with ⟨cs, hcs, hc⟩ | hc
            · subst hcs
              subst hc
              simp [llLookup, entryLookup]
            · rw [lookup_cons_of_mem_rest hw'.1.2 hsrest hc]
              exact hall c hc
          · intro hall c hc
            rw [← lookup_cons_of_mem_rest hw'.1.2 hsrest hc]
            exact hall c (by simp only [llCoords, List.mem_append]; exact Or.inr hc)
        · intro htrue
          rw [IH.2 htrue]
          simp only [llCoords, entryCoords, List.length_append, List.length_map,
            List.length_singleton]
          omega
      · have hred : list_eqeq_value (LL.cons k (Entry.elem a) rest) v
              ([] : List Nat).length checked
            = (false, checked + 1) := by
          simp [list_eqeq_value, ha]
        rw [hred]
        constructor
        · simp only [Bool.false_eq_true, false_iff]
          intro hall
          have hk : llLookup (LL.cons k (Entry.elem a) rest) [k] = some v := by
            apply hall
            simp [llCoords, entryCoords]
          simp [llLookup, entryLookup] at hk
          exact ha hk
        · intro h
          simp at h
    | cons d2 ds2 =>
      obtain ⟨t, rfl, hwt⟩ := wfBE_sub hw'.1.1.2
      have IHt := value_walk v t d2 ds2 checked hwt
      cases hp : (list_eqeq_value t v ds2.length checked).1 with
      | true =>
        have IHrest := value_walk v rest d (d2 :: ds2)
          (list_eqeq_value t v ds2.length checked).2 hw'.2
        have hred : list_eqeq_value (LL.cons k (Entry.sub t) rest) v
              (d2 :: ds2).length checked
            = list_eqeq_value rest v (d2 :: ds2).length
                (list_eqeq_value t v ds2.length checked).2 := by
          simp only [List.length_cons]
          simp [list_eqeq_value, hp]
        rw [hred]
        have htforall := IHt.1.mp hp
        have htcount := IHt.2 hp
        constructor
        · rw [IHrest.1]
          constructor
          · intro hall c hc
            simp only [llCoords, entryCoords, List.mem_append, List.mem_map] at hc
            rcases hc with ⟨cs, hcs, hc⟩ | hc
            · subst hc
              obtain ⟨k0, cs0, hcs0, _⟩ := coords_head t cs hcs
              have hv := htforall cs hcs
              subst hcs0
              simpa [llLookup, entryLookup] using hv
            · rw [lookup_cons_of_mem_rest hw'.1.2 hsrest hc]
              exact hall c hc
          · intro hall c hc
            rw [← lookup_cons_of_mem_rest hw'.1.2 hsrest hc]
            exact hall c (by simp only [llCoords, List.mem_append]; exact Or.inr hc)
        · intro htrue
          rw [IHrest.2 htrue, htcount]
          simp only [llCoords, entryCoords, List.length_append, List.length_map]
          omega
      | false =>
        have hred : list_eqeq_value (LL.cons k (Entry.sub t) rest) v
              (d2 :: ds2).length checked
            = (false, (list_eqeq_value t v ds2.length checked).2) := by
          simp only [List.length_cons]
          simp [list_eqeq_value, hp]
        rw [hred]
        constructor
        · simp only [Bool.false_eq_true, false_iff]
          intro hall
          have htr : (list_eqeq_value t v ds2.length checked).1 = true := by
            rw [IHt.1]
            intro cs hcs
            obtain ⟨k0, cs0, hcs0, _⟩ := coords_head t cs hcs
            have hmem : (k :: cs) ∈ llCoords (LL.cons k (Entry.sub t) rest) := by
              simp only [llCoords, entryCoords, List.mem_append, List.mem_map]
              exact Or.inl ⟨cs, hcs, rfl⟩
            have hv := hall (k :: cs) hmem
            subst hcs0
            simpa [llLookup, entryLookup] using hv
          rw [hp] at htr
          exact Bool.noConfusion htr
        · intro h
          exact absurd h (by simp)

/-! ## Helpers for the two-sided merge walk -/

theorem lookup_cons_self (k : Nat) (e : Entry α) (rest : LL α) (cs : List Nat) :
    llLookup (LL.cons k e rest) (k :: cs) = entryLookup e cs := by
  simp [llLookup]

theorem lookup_cons_ne {k k0 : Nat} (e : Entry α) (rest : LL α) (cs : List Nat)
    (h : k ≠ k0) :
    llLookup (LL.cons k e rest) (k0 :: cs) = llLookup rest (k0 :: cs) := by
  simp [llLookup, h]

theorem coords_head_gt {l : LL α} {k : Nat} (hlt : keyLt k l = true)
    (hs : llSorted l = true) {c : List Nat} (hm : c ∈ llCoords l) :
    ∃ k0 cs, c = k0 :: cs ∧ k < k0 := by
  obtain ⟨k0, cs, hc, hk0⟩ := coords_head l c hm
  exact ⟨k0, cs, hc, keys_gt l k hlt hs k0 hk0⟩

theorem mem_coords_cons_elem {k : Nat} {a : α} {rest : LL α} {c : List Nat} :
    c ∈ llCoords (LL.cons k (Entry.elem a) rest) ↔ c = [k] ∨ c ∈ llCoords rest := by
  constructor
  · intro h
    simp only [llCoords, entryCoords, List.mem_append, List.mem_map,
      List.mem_singleton] at h
    rcases h with ⟨cs, hcs, hc⟩ | h
    · subst hcs; exact Or.inl hc.symm
    · exact Or.inr h
  · intro h
    simp only [llCoords, entryCoords, List.mem_append, List.mem_map,
      List.mem_singleton]
    rcases h with rfl | h
    · exact Or.inl ⟨[], rfl, rfl⟩
    · exact Or.inr h

theorem mem_coords_cons_sub {k : Nat} {t rest : LL α} {c : List Nat} :
    c ∈ llCoords (LL.cons k (Entry.sub t) rest) ↔
      (∃ cs, cs ∈ llCoords t ∧ c = k :: cs) ∨ c ∈ llCoords rest := by
  constructor
  · intro h
    simp only [llCoords, entryCoords, List.mem_append, List.mem_map] at h
    rcases h with ⟨cs, hcs, hc⟩ | h
    · exact Or.inl ⟨cs, hcs, hc.symm⟩
    · exact Or.inr h
  · intro h
    simp only [llCoords, entryCoords, List.mem_append, List.mem_map]
    rcases h with ⟨cs, hcs, hc⟩ | h
    · exact Or.inl ⟨cs, hcs, hc.symm⟩
    · exact Or.inr h

/-- Looking a stored sub-tree coordinate up through a `sub` entry: stored
coordinates are non-empty, so the entry lookup is the sub-tree lookup. -/
theorem entryLookup_sub_of_mem {t tother : LL α} {cs : List Nat}
    (hm : cs ∈ llCoords tother) :
    entryLookup (Entry.sub t) cs = llLookup t cs := by
  obtain ⟨k0, cs0, hc, _⟩ := coords_head tother cs hm
  subst hc
  rfl

/-! ## Transfer lemmas: per-node walk conditions vs per-coordinate equalities -/

theorem transfer_match_elem [DecidableEq α] (lv rv la ra : α) (k : Nat)
    (lrest rrest : LL α)
    (hll : keyLt k lrest = true) (hsl : llSorted lrest = true)
    (hrl : keyLt k rrest = true) (hsr : llSorted rrest = true) :
    (∀ c, (c ∈ llCoords (LL.cons k (Entry.elem la) lrest) ∨
           c ∈ llCoords (LL.cons k (Entry.elem ra) rrest)) →
        (llLookup (LL.cons k (Entry.elem la) lrest) c).getD lv
          = (llLookup (LL.cons k (Entry.elem ra) rrest) c).getD rv) ↔
      (la = ra ∧
        ∀ c, (c ∈ llCoords lrest ∨ c ∈ llCoords rrest) →
          (llLookup lrest c).getD lv = (llLookup rrest c).getD rv) := by
  constructor
  · intro h
    refine ⟨?_, ?_⟩
    · have hk := h [k] (Or.inl (mem_coords_cons_elem.mpr (Or.inl rfl)))
      simpa [lookup_cons_self, entryLookup] using hk
    · intro c hc
      have hhead : ∃ k0 cs, c = k0 :: cs ∧ k < k0 := by
        rcases hc with hc | hc
        · exact coords_head_gt hll hsl hc
        · exact coords_head_gt hrl hsr hc
      obtain ⟨k0, cs, rfl, hk0⟩ := hhead
      have hne : k ≠ k0 := Nat.ne_of_lt hk0
      have hfull := h (k0 :: cs) (by
        rcases hc with hc | hc
        · exact Or.inl (mem_coords_cons_elem.mpr (Or.inr hc))
        · exact Or.inr (mem_coords_cons_elem.mpr (Or.inr hc)))
      rwa [lookup_cons_ne _ _ _ hne, lookup_cons_ne _ _ _ hne] at hfull
  · rintro ⟨hla, h⟩ c hc
    have hc' : c = [k] ∨ (c ∈ llCoords lrest ∨ c ∈ llCoords rrest) := by
      rcases hc with hc | hc
      · rcases mem_coords_cons_elem.mp hc with h1 | h1
        · exact Or.inl h1
        · exact Or.inr (Or.inl h1)
      · rcases mem_coords_cons_elem.mp hc with h1 | h1
        · exact Or.inl h1
        · exact Or.inr (Or.inr h1)
    rcases hc' with rfl | hc'
    · simp [lookup_cons_self, entryLookup, hla]
    · have hhead : ∃ k0 cs, c = k0 :: cs ∧ k < k0 := by
        rcases hc' with hc' | hc'
        · exact coords_head_gt hll hsl hc'
        · exact coords_head_gt hrl hsr hc'
      obtain ⟨k0, cs, rfl, hk0⟩ := hhead
      have hne : k ≠ k0 := Nat.ne_of_lt hk0
      rw [lookup_cons_ne _ _ _ hne, lookup_cons_ne _ _ _ hne]
      exact h _ hc'

theorem transfer_match_sub [DecidableEq α] (lv rv : α) (k : Nat)
    (ltc rtc lrest rrest : LL α)
    (hll : keyLt k lrest = true) (hsl : llSorted lrest = true)
    (hrl : keyLt k rrest = true) (hsr : llSorted rrest = true) :
    (∀ c, (c ∈ llCoords (LL.cons k (Entry.sub ltc) lrest) ∨
           c ∈ llCoords (LL.cons k (Entry.sub rtc) rrest)) →
        (llLookup (LL.cons k (Entry.sub ltc) lrest) c).getD lv
          = (llLookup (LL.cons k (Entry.sub rtc) rrest) c).getD rv) ↔
      ((∀ cs, (cs ∈ llCoords ltc ∨ cs ∈ llCoords rtc) →
          (llLookup ltc cs).getD lv = (llLookup rtc cs).getD rv) ∧
        ∀ c, (c ∈ llCoords lrest ∨ c ∈ llCoords rrest) →
          (llLookup lrest c).getD lv = (llLookup rrest c).getD rv) := by
  have hel : ∀ cs, (cs ∈ llCoords ltc ∨ cs ∈ llCoords rtc) →
      entryLookup (Entry.sub ltc) cs = llLookup ltc cs := by
    intro cs hcs
    rcases hcs with hcs | hcs
    · exact entryLookup_sub_of_mem hcs
    · exact entryLookup_sub_of_mem hcs
  have her : ∀ cs, (cs ∈ llCoords ltc ∨ cs ∈ llCoords rtc) →
      entryLookup (Entry.sub rtc) cs = llLookup rtc cs := by
    intro cs hcs
    rcases hcs with hcs | hcs
    · exact entryLookup_sub_of_mem hcs
    · exact entryLookup_sub_of_mem hcs
  constructor
  · intro h
    refine ⟨?_, ?_⟩
    · intro cs hcs
      have hfull := h (k :: cs) (by
        rcases hcs with hcs | hcs
        · exact Or.inl (mem_coords_cons_sub.mpr (Or.inl ⟨cs, hcs, rfl⟩))
        · exact Or.inr (mem_coords_cons_sub.mpr (Or.inl ⟨cs, hcs, rfl⟩)))
      rwa [lookup_cons_self, lookup_cons_self, hel cs hcs, her cs hcs] at hfull
    · intro c hc
      have hhead : ∃ k0 cs, c = k0 :: cs ∧ k < k0 := by
        rcases hc with hc | hc
        · exact coords_head_gt hll hsl hc
        · exact coords_head_gt hrl hsr hc
      obtain ⟨k0, cs, rfl, hk0⟩ := hhead
      have hne : k ≠ k0 := Nat.ne_of_lt hk0
      have hfull := h (k0 :: cs) (by
        rcases hc with hc | hc
        · exact Or.inl (mem_coords_cons_sub.mpr (Or.inr hc))
        · exact Or.inr (mem_coords_cons_sub.mpr (Or.inr hc)))
      rwa [lookup_cons_ne _ _ _ hne, lookup_cons_ne _ _ _ hne] at hfull
  · rintro ⟨hsub, h⟩ c hc
    have hc' : (∃ cs, (cs ∈ llCoords ltc ∨ cs ∈ llCoords rtc) ∧ c = k :: cs) ∨
        (c ∈ llCoords lrest ∨ c ∈ llCoords rrest) := by
      rcases hc with hc | hc
      · rcases mem_coords_cons_sub.mp hc with ⟨cs, hcs, hceq⟩ | h1
        · exact Or.inl ⟨cs, Or.inl hcs, hceq⟩
        · exact Or.inr (Or.inl h1)
      · rcases mem_coords_cons_sub.mp hc with ⟨cs, hcs, hceq⟩ | h1
        · exact Or.inl ⟨cs, Or.inr hcs, hceq⟩
        · exact Or.inr (Or.inr h1)
    rcases hc' with ⟨cs, hcs, rfl⟩ | hc'
    · rw [lookup_cons_self, lookup_cons_self, hel cs hcs, her cs hcs]
      exact hsub cs hcs
    · have hhead : ∃ k0 cs, c = k0 :: cs ∧ k < k0 := by
        rcases hc' with hc' | hc'
        · exact coords_head_gt hll hsl hc'
        · exact coords_head_gt hrl hsr hc'
      obtain ⟨k0, cs, rfl, hk0⟩ := hhead
      have hne : k ≠ k0 := Nat.ne_of_lt hk0
      rw [lookup_cons_ne _ _ _ hne, lookup_cons_ne _ _ _ hne]
      exact h _ hc'

theorem transfer_lt_elem [DecidableEq α] (lv rv la : α) (lk : Nat)
    (lrest rt : LL α)
    (hll : keyLt lk lrest = true) (hsl : llSorted lrest = true)
    (hrt : keyLt lk rt = true) (hsrt : llSorted rt = true) :
    (∀ c, (c ∈ llCoords (LL.cons lk (Entry.elem la) lrest) ∨ c ∈ llCoords rt) →
        (llLookup (LL.cons lk (Entry.elem la) lrest) c).getD lv
          = (llLookup rt c).getD rv) ↔
      (la = rv ∧
        ∀ c, (c ∈ llCoords lrest ∨ c ∈ llCoords rt) →
          (llLookup lrest c).getD lv = (llLookup rt c).getD rv) := by
  constructor
  · intro h
    refine ⟨?_, ?_⟩
    · have hk := h [lk] (Or.inl (mem_coords_cons_elem.mpr (Or.inl rfl)))
      rw [lookup_cons_self, lookup_keyLt_none rt lk [] hsrt hrt] at hk
      simpa [entryLookup] using hk
    · intro c hc
      have hhead : ∃ k0 cs, c = k0 :: cs ∧ lk < k0 := by
        rcases hc with hc | hc
        · exact coords_head_gt hll hsl hc
        · exact coords_head_gt hrt hsrt hc
      obtain ⟨k0, cs, rfl, hk0⟩ := hhead
      have hne : lk ≠ k0 := Nat.ne_of_lt hk0
      have hfull := h (k0 :: cs) (by
        rcases hc with hc | hc
        · exact Or.inl (mem_coords_cons_elem.mpr (Or.inr hc))
        · exact Or.inr hc)
      rwa [lookup_cons_ne _ _ _ hne] at hfull
  · rintro ⟨hla, h⟩ c hc
    have hc' : c = [lk] ∨ (c ∈ llCoords lrest ∨ c ∈ llCoords rt) := by
      rcases hc with hc | hc
      · rcases mem_coords_cons_elem.mp hc with h1 | h1
        · exact Or.inl h1
        · exact Or.inr (Or.inl h1)
      · exact Or.inr (Or.inr hc)
    rcases hc' with rfl | hc'
    · rw [lookup_cons_self, lookup_keyLt_none rt lk [] hsrt hrt]
      simpa [entryLookup] using hla
    · have hhead : ∃ k0 cs, c = k0 :: cs ∧ lk < k0 := by
        rcases hc' with hc' | hc'
        · exact coords_head_gt hll hsl hc'
        · exact coords_head_gt hrt hsrt hc'
      obtain ⟨k0, cs, rfl, hk0⟩ := hhead
      have hne : lk ≠ k0 := Nat.ne_of_lt hk0
      rw [lookup_cons_ne _ _ _ hne]
      exact h _ hc'

theorem transfer_lt_sub [DecidableEq α] (lv rv : α) (lk : Nat)
    (ltc lrest rt : LL α)
    (hll : keyLt lk lrest = true) (hsl : llSorted lrest = true)
    (hrt : keyLt lk rt = true) (hsrt : llSorted rt = true) :
    (∀ c, (c ∈ llCoords (LL.cons lk (Entry.sub ltc) lrest) ∨ c ∈ llCoords rt) →
        (llLookup (LL.cons lk (Entry.sub ltc) lrest) c).getD lv
          = (llLookup rt c).getD rv) ↔
      ((∀ cs ∈ llCoords ltc, (llLookup ltc cs).getD lv = rv) ∧
        ∀ c, (c ∈ llCoords lrest ∨ c ∈ llCoords rt) →
          (llLookup lrest c).getD lv = (llLookup rt c).getD rv) := by
  constructor
  · intro h
    refine ⟨?_, ?_⟩
    · intro cs hcs
      have hfull := h (lk :: cs)
        (Or.inl (mem_coords_cons_sub.mpr (Or.inl ⟨cs, hcs, rfl⟩)))
      rwa [lookup_cons_self, entryLookup_sub_of_mem hcs,
        lookup_keyLt_none rt lk cs hsrt hrt] at hfull
    · intro c hc
      have hhead : ∃ k0 cs, c = k0 :: cs ∧ lk < k0 := by
        rcases hc with hc | hc
        · exact coords_head_gt hll hsl hc
        · exact coords_head_gt hrt hsrt hc
      obtain ⟨k0, cs, rfl, hk0⟩ := hhead
      have hne : lk ≠ k0 := Nat.ne_of_lt hk0
      have hfull := h (k0 :: cs) (by
        rcases hc with hc | hc
        · exact Or.inl (mem_coords_cons_sub.mpr (Or.inr hc))
        · exact Or.inr hc)
      rwa [lookup_cons_ne _ _ _ hne] at hfull
  · rintro ⟨hsub, h⟩ c hc
    have hc' : (∃ cs, cs ∈ llCoords ltc ∧ c = lk :: cs) ∨
        (c ∈ llCoords lrest ∨ c ∈ llCoords rt) := by
      rcases hc with hc | hc
      · rcases mem_coords_cons_sub.mp hc with ⟨cs, hcs, hceq⟩ | h1
        · exact Or.inl ⟨cs, hcs, hceq⟩
        · exact Or.inr (Or.inl h1)
      · exact Or.inr (Or.inr hc)
    rcases hc' with ⟨cs, hcs, rfl⟩ | hc'
    · rw [lookup_cons_self, entryLookup_sub_of_mem hcs,
        lookup_keyLt_none rt lk cs hsrt hrt]
      exact hsub cs hcs
    · have hhead : ∃ k0 cs, c = k0 :: cs ∧ lk < k0 := by
        rcases hc' with hc' | hc'
        · exact coords_head_gt hll hsl hc'
        · exact coords_head_gt hrt hsrt hc'
      obtain ⟨k0, cs, rfl, hk0⟩ := hhead
      have hne : lk ≠ k0 := Nat.ne_of_lt hk0
      rw [lookup_cons_ne _ _ _ hne]
      exact h _ hc'

theorem transfer_gt_elem [DecidableEq α] (lv rv ra : α) (rk : Nat)
    (lt rrest : LL α)
    (hrl : keyLt rk rrest = true) (hsr : llSorted rrest = true)
    (hlt : keyLt rk lt = true) (hslt : llSorted lt = true) :
    (∀ c, (c ∈ llCoords lt ∨ c ∈ llCoords (LL.cons rk (Entry.elem ra) rrest)) →
        (llLookup lt c).getD lv
          = (llLookup (LL.cons rk (Entry.elem ra) rrest) c).getD rv) ↔
      (lv = ra ∧
        ∀ c, (c ∈ llCoords lt ∨ c ∈ llCoords rrest) →
          (llLookup lt c).getD lv = (llLookup rrest c).getD rv) := by
  constructor
  · intro h
    refine ⟨?_, ?_⟩
    · have hk := h [rk] (Or.inr (mem_coords_cons_elem.mpr (Or.inl rfl)))
      rw [lookup_cons_self, lookup_keyLt_none lt rk [] hslt hlt] at hk
      simpa [entryLookup] using hk
    · intro c hc
      have hhead : ∃ k0 cs, c = k0 :: cs ∧ rk < k0 := by
        rcases hc with hc | hc
        · exact coords_head_gt hlt hslt hc
        · exact coords_head_gt hrl hsr hc
      obtain ⟨k0, cs, rfl, hk0⟩ := hhead
      have hne : rk ≠ k0 := Nat.ne_of_lt hk0
      have hfull := h (k0 :: cs) (by
        rcases hc with hc | hc
        · exact Or.inl hc
        · exact Or.inr (mem_coords_cons_elem.mpr (Or.inr hc)))
      rwa [lookup_cons_ne _ _ _ hne] at hfull
  · rintro ⟨hra, h⟩ c hc
    have hc' : c = [rk] ∨ (c ∈ llCoords lt ∨ c ∈ llCoords rrest) := by
      rcases hc with hc | hc
      · exact Or.inr (Or.inl hc)
      · rcases mem_coords_cons_elem.mp hc with h1 | h1
        · exact Or.inl h1
        · exact Or.inr (Or.inr h1)
    rcases hc' with rfl | hc'
    · rw [lookup_cons_self, lookup_keyLt_none lt rk [] hslt hlt]
      simpa [entryLookup] using hra
    · have hhead : ∃ k0 cs, c = k0 :: cs ∧ rk < k0 := by
        rcases hc' with hc' | hc'
        · exact coords_head_gt hlt hslt hc'
        · exact coords_head_gt hrl hsr hc'
      obtain ⟨k0, cs, rfl, hk0⟩ := hhead
      have hne : rk ≠ k0 := Nat.ne_of_lt hk0
      rw [lookup_cons_ne _ _ _ hne]
      exact h _ hc'

theorem transfer_gt_sub [DecidableEq α] (lv rv : α) (rk : Nat)
    (rtc lt rrest : LL α)
    (hrl : keyLt rk rrest = true) (hsr : llSorted rrest = true)
    (hlt : keyLt rk lt = true) (hslt : llSorted lt = true) :
    (∀ c, (c ∈ llCoords lt ∨ c ∈ llCoords (LL.cons rk (Entry.sub rtc) rrest)) →
        (llLookup lt c).getD lv
          = (llLookup (LL.cons rk (Entry.sub rtc) rrest) c).getD rv) ↔
      ((∀ cs ∈ llCoords rtc, lv = (llLookup rtc cs).getD rv) ∧
        ∀ c, (c ∈ llCoords lt ∨ c ∈ llCoords rrest) →
          (llLookup lt c).getD lv = (llLookup rrest c).getD rv) := by
  constructor
  · intro h
    refine ⟨?_, ?_⟩
    · intro cs hcs
      have hfull := h (rk :: cs)
        (Or.inr (mem_coords_cons_sub.mpr (Or.inl ⟨cs, hcs, rfl⟩)))
      rwa [lookup_cons_self, entryLookup_sub_of_mem hcs,
        lookup_keyLt_none lt rk cs hslt hlt] at hfull
    · intro c hc
      have hhead : ∃ k0 cs, c = k0 :: cs ∧ rk < k0 := by
        rcases hc with hc | hc
        · exact coords_head_gt hlt hslt hc
        · exact coords_head_gt hrl hsr hc
      obtain ⟨k0, cs, rfl, hk0⟩ := hhead
      have hne : rk ≠ k0 := Nat.ne_of_lt hk0
      have hfull := h (k0 :: cs) (by
        rcases hc with hc | hc
        · exact Or.inl hc
        · exact Or.inr (mem_coords_cons_sub.mpr (Or.inr hc)))
      rwa [lookup_cons_ne _ _ _ hne] at hfull
  · rintro ⟨hsub, h⟩ c hc
    have hc' : (∃ cs, cs ∈ llCoords rtc ∧ c = rk :: cs) ∨
        (c ∈ llCoords lt ∨ c ∈ llCoords rrest) := by
      rcases hc with hc | hc
      · exact Or.inr (Or.inl hc)
      · rcases mem_coords_cons_sub.mp hc with ⟨cs, hcs, hceq⟩ | h1
        · exact Or.inl ⟨cs, hcs, hceq⟩
        · exact Or.inr (Or.inr h1)
    rcases hc' with ⟨cs, hcs, rfl⟩ | hc'
    · rw [lookup_cons_self, entryLookup_sub_of_mem hcs,
        lookup_keyLt_none lt rk cs hslt hlt]
      exact hsub cs hcs
    · have hhead : ∃ k0 cs, c = k0 :: cs ∧ rk < k0 := by
        rcases hc' with hc' | hc'
        · exact coords_head_gt hlt hslt hc'
        · exact coords_head_gt hrl hsr hc'
      obtain ⟨k0, cs, rfl, hk0⟩ := hhead
      have hne : rk ≠ k0 := Nat.ne_of_lt hk0
      rw [lookup_cons_ne _ _ _ hne]
      exact h _ hc'

/-! ## Correctness of the two-sided equality walk (`list_eqeq_list`) -/

theorem list_walk [DecidableEq α] (lv rv : α) :
    ∀ (lt rt : LL α) (d : Nat) (ds : List Nat) (checked : Nat),
    wfBL lt (d :: ds) = true → wfBL rt (d :: ds) = true →
    (((list_eqeq_list lt rt lv rv ds.length checked).1 = true ↔
        ∀ c, (c ∈ llCoords lt ∨ c ∈ llCoords rt) →
          (llLookup lt c).getD lv = (llLookup rt c).getD rv) ∧
      ((list_eqeq_list lt rt lv rv ds.length checked).1 = true →
        (list_eqeq_list lt rt lv rv ds.length checked).2 = checked + unionCount lt rt))
  | LL.nil, LL.nil, d, ds, checked, _, _ => by
    simp [list_eqeq_list, unionCount, llCoords]
  | LL.nil, LL.cons rk re rrest, d, ds, checked, _, hwr => by
    have hred : list_eqeq_list LL.nil (LL.cons rk re rrest) lv rv ds.length checked
        = list_eqeq_value (LL.cons rk re rrest) lv ds.length checked := by
      simp [list_eqeq_list]
    have VW := value_walk lv (LL.cons rk re rrest) d ds checked hwr
    rw [hred]
    constructor
    · rw [VW.1]
      constructor
      · intro hall c hc
        rcases hc with hc | hc
        · simp [llCoords] at hc
        · simp [llLookup, hall c hc]
      · intro hall cs hcs
        obtain ⟨x, hx⟩ := ll_mem_lookup (LL.cons rk re rrest) (d :: ds) cs hwr hcs
        have := hall cs (Or.inr hcs)
        rw [hx] at this
        simp only [llLookup, Option.getD_none, Option.getD_some] at this
        rw [hx, this]
    · intro htrue
      rw [VW.2 htrue]
      simp [unionCount]
  | LL.cons lk le lrest, LL.nil, d, ds, checked, hwl, _ => by
    have hred : list_eqeq_list (LL.cons lk le lrest) LL.nil lv rv ds.length checked
        = list_eqeq_value (LL.cons lk le lrest) rv ds.length checked := by
      simp [list_eqeq_list]
    have VW := value_walk rv (LL.cons lk le lrest) d ds checked hwl
    rw [hred]
    constructor
    · rw [VW.1]
      constructor
      · intro hall c hc
        rcases hc with hc | hc
        · simp [llLookup, hall c hc]
        · simp [llCoords] at hc
      · intro hall cs hcs
        obtain ⟨x, hx⟩ := ll_mem_lookup (LL.cons lk le lrest) (d :: ds) cs hwl hcs
        have := hall cs (Or.inl hcs)
        rw [hx] at this
        simp only [llLookup, Option.getD_none, Option.getD_some] at this
        rw [hx, this]
    · intro htrue
      rw [VW.2 htrue]
      simp [unionCount]
  | LL.cons lk le lrest, LL.cons rk re rrest, d, ds, checked, hwl, hwr => by
    have hwl' := hwl
    have hwr' := hwr
    simp only [wfBL, Bool.and_eq_true] at hwl' hwr'
    have hsl := wfBL_sorted lrest _ hwl'.2
    have hsr := wfBL_sorted rrest _ hwr'.2
    have hsltfull := wfBL_sorted _ _ hwl
    have hsrtfull := wfBL_sorted _ _ hwr
    by_cases heq : lk = rk
    · subst heq
      cases ds with
      | nil =>
        obtain ⟨la, rfl⟩ := wfBE_elem hwl'.1.1.2
        obtain ⟨ra, rfl⟩ := wfBE_elem hwr'.1.1.2
        have htr := transfer_match_elem lv rv la ra lk lrest rrest
          hwl'.1.2 hsl hwr'.1.2 hsr
        by_cases hab : la = ra
        · have hred : list_eqeq_list (LL.cons lk (Entry.elem la) lrest)
              (LL.cons lk (Entry.elem ra) rrest) lv rv ([] : List Nat).length checked
              = list_eqeq_list lrest rrest lv rv 0 (checked + 1) := by
            rw [list_eqeq_list.eq_def]; simp [hab]
          have IH := list_walk lv rv lrest rrest d [] (checked + 1) hwl'.2 hwr'.2
          simp only [List.length_nil] at IH
          rw [hred]
          constructor
          · rw [IH.1, htr]
            exact (and_iff_right hab).symm
          · intro htrue
            have hu : unionCount (LL.cons lk (Entry.elem la) lrest)
                (LL.cons lk (Entry.elem ra) rrest) = 1 + unionCount lrest rrest := by
              rw [unionCount.eq_def]; simp
            rw [IH.2 htrue, hu]
            omega
        · have hred : list_eqeq_list (LL.cons lk (Entry.elem la) lrest)
              (LL.cons lk (Entry.elem ra) rrest) lv rv ([] : List Nat).length checked
              = (false, checked + 1) := by
            rw [list_eqeq_list.eq_def]; simp [hab]
          rw [hred]
          constructor
          · simp only [Bool.false_eq_true, false_iff]
            intro hall
            exact hab (htr.mp hall).1
          · intro h
            simp at h
      | cons d2 ds2 =>
        obtain ⟨ltc, rfl, hwltc⟩ := wfBE_sub hwl'.1.1.2
        obtain ⟨rtc, rfl, hwrtc⟩ := wfBE_sub hwr'.1.1.2
        have htr := transfer_match_sub lv rv lk ltc rtc lrest rrest
          hwl'.1.2 hsl hwr'.1.2 hsr
        have IHin := list_walk lv rv ltc rtc d2 ds2 checked hwltc hwrtc
        cases hp : (list_eqeq_list ltc rtc lv rv ds2.length checked).1 with
        | true =>
          have IHrest := list_walk lv rv lrest rrest d (d2 :: ds2)
            (list_eqeq_list ltc rtc lv rv ds2.length checked).2 hwl'.2 hwr'.2
          have hred : list_eqeq_list (LL.cons lk (Entry.sub ltc) lrest)
              (LL.cons lk (Entry.sub rtc) rrest) lv rv (d2 :: ds2).length checked
              = list_eqeq_list lrest rrest lv rv (d2 :: ds2).length
                  (list_eqeq_list ltc rtc lv rv ds2.length checked).2 := by
            simp only [List.length_cons]
            rw [list_eqeq_list.eq_def]; simp [hp]
          rw [hred]
          constructor
          · rw [IHrest.1, htr]
            exact (and_iff_right (IHin.1.mp hp)).symm
          · intro htrue
            have hu : unionCount (LL.cons lk (Entry.sub ltc) lrest)
                (LL.cons lk (Entry.sub rtc) rrest)
                = unionCount ltc rtc + unionCount lrest rrest := by
              rw [unionCount.eq_def]; simp
            rw [IHrest.2 htrue, IHin.2 hp, hu]
            omega
        | false =>
          have hred : list_eqeq_list (LL.cons lk (Entry.sub ltc) lrest)
              (LL.cons lk (Entry.sub rtc) rrest) lv rv (d2 :: ds2).length checked
              = (false, (list_eqeq_list ltc rtc lv rv ds2.length checked).2) := by
            simp only [List.length_cons]
            rw [list_eqeq_list.eq_def]; simp [hp]
          rw [hred]
          constructor
          · simp only [Bool.false_eq_true, false_iff]
            intro hall
            have := IHin.1.mpr (htr.mp hall).1
            rw [hp] at this
            exact Bool.noConfusion this
          · intro h
            simp at h
    · by_cases hlt : lk < rk
      · have hkltrt : keyLt lk (LL.cons rk re rrest) = true := by
          simp [keyLt, hlt]
        cases ds with
        | nil =>
          obtain ⟨la, rfl⟩ := wfBE_elem hwl'.1.1.2
          have htr := transfer_lt_elem lv rv la lk lrest (LL.cons rk re rrest)
            hwl'.1.2 hsl hkltrt hsrtfull
          by_cases hav : la = rv
          · have hred : list_eqeq_list (LL.cons lk (Entry.elem la) lrest)
                (LL.cons rk re rrest) lv rv ([] : List Nat).length checked
                = list_eqeq_list lrest (LL.cons rk re rrest) lv rv 0 (checked + 1) := by
              rw [list_eqeq_list.eq_def]; simp [heq, hlt, hav]
            have IH := list_walk lv rv lrest (LL.cons rk re rrest) d []
              (checked + 1) hwl'.2 hwr
            simp only [List.length_nil] at IH
            rw [hred]
            constructor
            · rw [IH.1, htr]
              exact (and_iff_right hav).symm
            · intro htrue
              have hu : unionCount (LL.cons lk (Entry.elem la) lrest)
                  (LL.cons rk re rrest)
                  = 1 + unionCount lrest (LL.cons rk re rrest) := by
                rw [unionCount.eq_def]; simp [heq, hlt, entryCoords]
              rw [IH.2 htrue, hu]
              omega
          · have hred : list_eqeq_list (LL.cons lk (Entry.elem la) lrest)
                (LL.cons rk re rrest) lv rv ([] : List Nat).length checked
                = (false, checked + 1) := by
              rw [list_eqeq_list.eq_def]; simp [heq, hlt, hav]
            rw [hred]
            constructor
            · simp only [Bool.false_eq_true, false_iff]
              intro hall
              exact hav (htr.mp hall).1
            · intro h
              simp at h
        | cons d2 ds2 =>
          obtain ⟨ltc, rfl, hwltc⟩ := wfBE_sub hwl'.1.1.2
          have htr := transfer_lt_sub lv rv lk ltc lrest (LL.cons rk re rrest)
            hwl'.1.2 hsl hkltrt hsrtfull
          have VW := value_walk rv ltc d2 ds2 checked hwltc
          cases hp : (list_eqeq_value ltc rv ds2.length checked).1 with
          | true =>
            have IH := list_walk lv rv lrest (LL.cons rk re rrest) d (d2 :: ds2)
              (list_eqeq_value ltc rv ds2.length checked).2 hwl'.2 hwr
            have hred : list_eqeq_list (LL.cons lk (Entry.sub ltc) lrest)
                (LL.cons rk re rrest) lv rv (d2 :: ds2).length checked
                = list_eqeq_list lrest (LL.cons rk re rrest) lv rv (d2 :: ds2).length
                    (list_eqeq_value ltc rv ds2.length checked).2 := by
              simp only [List.length_cons]
              rw [list_eqeq_list.eq_def]; simp [heq, hlt, hp]
            rw [hred]
            have hin : ∀ cs ∈ llCoords ltc, (llLookup ltc cs).getD lv = rv := by
              intro cs hcs
              rw [VW.1.mp hp cs hcs]
              rfl
            constructor
            · rw [IH.1, htr]
              exact (and_iff_right hin).symm
            · intro htrue
              have hu : unionCount (LL.cons lk (Entry.sub ltc) lrest)
                  (LL.cons rk re rrest)
                  = (llCoords ltc).length + unionCount lrest (LL.cons rk re rrest) := by
                rw [unionCount.eq_def]; simp [heq, hlt, entryCoords]
              rw [IH.2 htrue, VW.2 hp, hu]
              omega
          | false =>
            have hred : list_eqeq_list (LL.cons lk (Entry.sub ltc) lrest)
                (LL.cons rk re rrest) lv rv (d2 :: ds2).length checked
                = (false, (list_eqeq_value ltc rv ds2.length checked).2) := by
              simp only [List.length_cons]
              rw [list_eqeq_list.eq_def]; simp [heq, hlt, hp]
            rw [hred]
            constructor
            · simp only [Bool.false_eq_true, false_iff]
              intro hall
              have hin := (htr.mp hall).1
              have hsome : ∀ cs ∈ llCoords ltc, llLookup ltc cs = some rv := by
                intro cs hcs
                obtain ⟨x, hx⟩ := ll_mem_lookup ltc (d2 :: ds2) cs hwltc hcs
                have := hin cs hcs
                rw [hx] at this ⊢
                simp only [Option.getD_some] at this
                rw [this]
              have := VW.1.mpr hsome
              rw [hp] at this
              exact Bool.noConfusion this
            · intro h
              simp at h
      · have hgt : rk < lk := by omega
        have hkltlt : keyLt rk (LL.cons lk le lrest) = true := by
          simp [keyLt, hgt]
        have hnlt : ¬ lk < rk := by omega
        cases ds with
        | nil =>
          obtain ⟨ra, rfl⟩ := wfBE_elem hwr'.1.1.2
          have htr := transfer_gt_elem lv rv ra rk (LL.cons lk le lrest) rrest
            hwr'.1.2 hsr hkltlt hsltfull
          by_cases hav : ra = lv
          · have hred : list_eqeq_list (LL.cons lk le lrest)
                (LL.cons rk (Entry.elem ra) rrest) lv rv ([] : List Nat).length checked
                = list_eqeq_list (LL.cons lk le lrest) rrest lv rv 0 (checked + 1) := by
              rw [list_eqeq_list.eq_def]; simp [heq, hnlt, hav]
            have IH := list_walk lv rv (LL.cons lk le lrest) rrest d []
              (checked + 1) hwl hwr'.2
            simp only [List.length_nil] at IH
            rw [hred]
            constructor
            · rw [IH.1, htr]
              exact (and_iff_right hav.symm).symm
            · intro htrue
              have hu : unionCount (LL.cons lk le lrest)
                  (LL.cons rk (Entry.elem ra) rrest)
                  = 1 + unionCount (LL.cons lk le lrest) rrest := by
                rw [unionCount.eq_def]; simp [heq, hnlt, entryCoords]
              rw [IH.2 htrue, hu]
              omega
          · have hred : list_eqeq_list (LL.cons lk le lrest)
                (LL.cons rk (Entry.elem ra) rrest) lv rv ([] : List Nat).length checked
                = (false, checked + 1) := by
              rw [list_eqeq_list.eq_def]; simp [heq, hnlt, hav]
            rw [hred]
            constructor
            · simp only [Bool.false_eq_true, false_iff]
              intro hall
              exact hav (htr.mp hall).1.symm
            · intro h
              simp at h
        | cons d2 ds2 =>
          obtain ⟨rtc, rfl, hwrtc⟩ := wfBE_sub hwr'.1.1.2
          have htr := transfer_gt_sub lv rv rk rtc (LL.cons lk le lrest) rrest
            hwr'.1.2 hsr hkltlt hsltfull
          have VW := value_walk lv rtc d2 ds2 checked hwrtc
          cases hp : (list_eqeq_value rtc lv ds2.length checked).1 with
          | true =>
            have IH := list_walk lv rv (LL.cons lk le lrest) rrest d (d2 :: ds2)
              (list_eqeq_value rtc lv ds2.length checked).2 hwl hwr'.2
            have hred : list_eqeq_list (LL.cons lk le lrest)
                (LL.cons rk (Entry.sub rtc) rrest) lv rv (d2 :: ds2).length checked
                = list_eqeq_list (LL.cons lk le lrest) rrest lv rv (d2 :: ds2).length
                    (list_eqeq_value rtc lv ds2.length checked).2 := by
              simp only [List.length_cons]
              rw [list_eqeq_list.eq_def]; simp [heq, hnlt, hp]
            rw [hred]
            have hin : ∀ cs ∈ llCoords rtc, lv = (llLookup rtc cs).getD rv := by
              intro cs hcs
              rw [VW.1.mp hp cs hcs]
              rfl
            constructor
            · rw [IH.1, htr]
              exact (and_iff_right hin).symm
            · intro htrue
              have hu : unionCount (LL.cons lk le lrest)
                  (LL.cons rk (Entry.sub rtc) rrest)
                  = (llCoords rtc).length + unionCount (LL.cons lk le lrest) rrest := by
                rw [unionCount.eq_def]; simp [heq, hnlt, entryCoords]
              rw [IH.2 htrue, VW.2 hp, hu]
              omega
          | false =>
            have hred : list_eqeq_list (LL.cons lk le lrest)
                (LL.cons rk (Entry.sub rtc) rrest) lv rv (d2 :: ds2).length checked
                = (false, (list_eqeq_value rtc lv ds2.length checked).2) := by
              simp only [List.length_cons]
              rw [list_eqeq_list.eq_def]; simp [heq, hnlt, hp]
            rw [hred]
            constructor
            · simp only [Bool.false_eq_true, false_iff]
              intro hall
              have hin := (htr.mp hall).1
              have hsome : ∀ cs ∈ llCoords rtc, llLookup rtc cs = some lv := by
                intro cs hcs
                obtain ⟨x, hx⟩ := ll_mem_lookup rtc (d2 :: ds2) cs hwrtc hcs
                have := hin cs hcs
                rw [hx] at this ⊢
                simp only [Option.getD_some] at this
                rw [← this]
              have := VW.1.mpr hsome
              rw [hp] at this
              exact Bool.noConfusion this
            · intro h
              simp at h
termination_by lt rt d ds checked => sizeOf lt + sizeOf rt

/-! ## The walk's accounting: `unionCount` is the size of the union of the
stored coordinate sets -/

theorem list_toFinset_map {β γ : Type} [DecidableEq β] [DecidableEq γ]
    (f : β → γ) (l : List β) : (l.map f).toFinset = l.toFinset.image f := by
  ext x
  simp

theorem unionCount_card [DecidableEq α] :
    ∀ (lt rt : LL α) (dims : List Nat), wfBL lt dims = true → wfBL rt dims = true →
    unionCount lt rt = ((llCoords lt).toFinset ∪ (llCoords rt).toFinset).card
  | LL.nil, rt, dims, _, hwr => by
    rw [unionCount.eq_def]
    simp [List.toFinset_card_of_nodup (llCoords_nodup rt dims hwr), llCoords]
  | LL.cons lk le lrest, LL.nil, dims, hwl, _ => by
    have h0 : llCoords (LL.nil : LL α) = [] := rfl
    rw [unionCount.eq_def]
    simp [h0, List.toFinset_card_of_nodup (llCoords_nodup (LL.cons lk le lrest) dims hwl)]
  | LL.cons lk le lrest, LL.cons rk re rrest, dims, hwl, hwr => by
    cases dims with
    | nil => simp [wfBL] at hwl
    | cons d ds =>
      have hwl' := hwl
      have hwr' := hwr
      simp only [wfBL, Bool.and_eq_true] at hwl' hwr'
      have hsl := wfBL_sorted lrest _ hwl'.2
      have hsr := wfBL_sorted rrest _ hwr'.2
      have hIHrest := unionCount_card lrest rrest (d :: ds) hwl'.2 hwr'.2
      by_cases heq : lk = rk
      · subst heq
        -- (Ma ∪ Ra) ∪ (Mb ∪ Rb) = (Ma ∪ Mb) ∪ (Ra ∪ Rb), the parts disjoint
        have hset : ((llCoords (LL.cons lk le lrest)).toFinset ∪
              (llCoords (LL.cons lk re rrest)).toFinset)
            = (((entryCoords le).map (lk :: ·)).toFinset ∪
                ((entryCoords re).map (lk :: ·)).toFinset) ∪
              ((llCoords lrest).toFinset ∪ (llCoords rrest).toFinset) := by
          ext x
          simp only [llCoords, List.toFinset_append, Finset.mem_union]
          tauto
        have hdisj : Disjoint
            (((entryCoords le).map (lk :: ·)).toFinset ∪
              ((entryCoords re).map (lk :: ·)).toFinset)
            ((llCoords lrest).toFinset ∪ (llCoords rrest).toFinset) := by
          rw [Finset.disjoint_left]
          intro x hx1 hx2
          have hhead : ∃ cs, x = lk :: cs := by
            simp only [Finset.mem_union, List.mem_toFinset, List.mem_map] at hx1
            rcases hx1 with ⟨cs, _, hc⟩ | ⟨cs, _, hc⟩ <;> exact ⟨cs, hc.symm⟩
          have hgt : ∃ k0 cs, x = k0 :: cs ∧ lk < k0 := by
            simp only [Finset.mem_union, List.mem_toFinset] at hx2
            rcases hx2 with hx2 | hx2
            · exact coords_head_gt hwl'.1.2 hsl hx2
            · exact coords_head_gt hwr'.1.2 hsr hx2
          obtain ⟨cs, rfl⟩ := hhead
          obtain ⟨k0, cs0, heq0, hk0⟩ := hgt
          have : lk = k0 := by injection heq0
          omega
        have himg : (((entryCoords le).map (lk :: ·)).toFinset ∪
              ((entryCoords re).map (lk :: ·)).toFinset)
            = ((entryCoords le).toFinset ∪ (entryCoords re).toFinset).image (lk :: ·) := by
          rw [list_toFinset_map, list_toFinset_map, Finset.image_union]
        have hcard : ((llCoords (LL.cons lk le lrest)).toFinset ∪
              (llCoords (LL.cons lk re rrest)).toFinset).card
            = ((entryCoords le).toFinset ∪ (entryCoords re).toFinset).card
              + unionCount lrest rrest := by
          rw [hset, Finset.card_union_of_disjoint hdisj, himg,
            Finset.card_image_of_injective _ List.cons_injective, ← hIHrest]
        rw [hcard]
        cases ds with
        | nil =>
          obtain ⟨la, rfl⟩ := wfBE_elem hwl'.1.1.2
          obtain ⟨ra, rfl⟩ := wfBE_elem hwr'.1.1.2
          have hu : unionCount (LL.cons lk (Entry.elem la) lrest)
              (LL.cons lk (Entry.elem ra) rrest) = 1 + unionCount lrest rrest := by
            rw [unionCount.eq_def]
            simp
          rw [hu]
          simp [entryCoords]
        | cons d2 ds2 =>
          obtain ⟨ltc, rfl, hwltc⟩ := wfBE_sub hwl'.1.1.2
          obtain ⟨rtc, rfl, hwrtc⟩ := wfBE_sub hwr'.1.1.2
          have hu : unionCount (LL.cons lk (Entry.sub ltc) lrest)
              (LL.cons lk (Entry.sub rtc) rrest)
              = unionCount ltc rtc + unionCount lrest rrest := by
            rw [unionCount.eq_def]
            simp
          rw [hu, unionCount_card ltc rtc (d2 :: ds2) hwltc hwrtc]
          simp [entryCoords]
      · have hwfe : (entryCoords le).Nodup := entryCoords_nodup le ds hwl'.1.1.2
        by_cases hlt : lk < rk
        · have hkltrt : keyLt lk (LL.cons rk re rrest) = true := by
            simp [keyLt, hlt]
          have hsrtfull := wfBL_sorted _ _ hwr
          have hset : ((llCoords (LL.cons lk le lrest)).toFinset ∪
                (llCoords (LL.cons rk re rrest)).toFinset)
              = ((entryCoords le).map (lk :: ·)).toFinset ∪
                ((llCoords lrest).toFinset ∪
                  (llCoords (LL.cons rk re rrest)).toFinset) := by
            ext x
            simp only [llCoords, List.toFinset_append, Finset.mem_union]
            tauto
          have hdisj : Disjoint (((entryCoords le).map (lk :: ·)).toFinset)
              ((llCoords lrest).toFinset ∪
                (llCoords (LL.cons rk re rrest)).toFinset) := by
            rw [Finset.disjoint_left]
            intro x hx1 hx2
            have hhead : ∃ cs, x = lk :: cs := by
              simp only [List.mem_toFinset, List.mem_map] at hx1
              obtain ⟨cs, _, hc⟩ := hx1
              exact ⟨cs, hc.symm⟩
            have hgt : ∃ k0 cs, x = k0 :: cs ∧ lk < k0 := by
              simp only [Finset.mem_union, List.mem_toFinset] at hx2
              rcases hx2 with hx2 | hx2
              · exact coords_head_gt hwl'.1.2 hsl hx2
              · exact coords_head_gt hkltrt hsrtfull hx2
            obtain ⟨cs, rfl⟩ := hhead
            obtain ⟨k0, cs0, heq0, hk0⟩ := hgt
            have : lk = k0 := by injection heq0
            omega
          have hIH := unionCount_card lrest (LL.cons rk re rrest) (d :: ds)
            hwl'.2 hwr
          rw [unionCount.eq_def]
          simp only [if_neg heq, if_pos hlt]
          rw [hset, Finset.card_union_of_disjoint hdisj, ← hIH,
            List.toFinset_card_of_nodup (hwfe.map List.cons_injective),
            List.length_map]
        · have hgt : rk < lk := by omega
          have hkltlt : keyLt rk (LL.cons lk le lrest) = true := by
            simp [keyLt, hgt]
          have hsltfull := wfBL_sorted _ _ hwl
          have hwfer : (entryCoords re).Nodup := entryCoords_nodup re ds hwr'.1.1.2
          have hset : ((llCoords (LL.cons lk le lrest)).toFinset ∪
                (llCoords (LL.cons rk re rrest)).toFinset)
              = ((entryCoords re).map (rk :: ·)).toFinset ∪
                ((llCoords (LL.cons lk le lrest)).toFinset ∪
                  (llCoords rrest).toFinset) := by
            ext x
            simp only [llCoords, List.toFinset_append, Finset.mem_union]
            tauto
          have hdisj : Disjoint (((entryCoords re).map (rk :: ·)).toFinset)
              ((llCoords (LL.cons lk le lrest)).toFinset ∪
                (llCoords rrest).toFinset) := by
            rw [Finset.disjoint_left]
            intro x hx1 hx2
            have hhead : ∃ cs, x = rk :: cs := by
              simp only [List.mem_toFinset, List.mem_map] at hx1
              obtain ⟨cs, _, hc⟩ := hx1
              exact ⟨cs, hc.symm⟩
            have hgt2 : ∃ k0 cs, x = k0 :: cs ∧ rk < k0 := by
              simp only [Finset.mem_union, List.mem_toFinset] at hx2
              rcases hx2 with hx2 | hx2
              · exact coords_head_gt hkltlt hsltfull hx2
              · exact coords_head_gt hwr'.1.2 hsr hx2
            obtain ⟨cs, rfl⟩ := hhead
            obtain ⟨k0, cs0, heq0, hk0⟩ := hgt2
            have : rk = k0 := by injection heq0
            omega
          have hIH := unionCount_card (LL.cons lk le lrest) rrest (d :: ds)
            hwl hwr'.2
          have hnlt : ¬ lk < rk := by omega
          rw [unionCount.eq_def]
          simp only [if_neg heq, if_neg hnlt]
          rw [hset, Finset.card_union_of_disjoint hdisj, ← hIH,
            List.toFinset_card_of_nodup (hwfer.map List.cons_injective),
            List.length_map]
termination_by lt rt dims => sizeOf lt + sizeOf rt

/-! ## The full coordinate grid -/

theorem mem_allCoords : ∀ (dims : List Nat) (c : List Nat),
    c ∈ allCoords dims ↔ inShape c dims = true
  | [], c => by cases c <;> simp [allCoords, inShape]
  | d :: ds, c => by
    cases c with
    | nil => simp [allCoords, inShape]
    | cons c0 cs =>
      simp only [allCoords, List.mem_flatMap, List.mem_map, List.mem_range, inShape_cons]
      constructor
      · rintro ⟨k, hk, cs', hcs', heq⟩
        injection heq with h1 h2
        exact ⟨h1 ▸ hk, (mem_allCoords ds cs).mp (h2 ▸ hcs')⟩
      · rintro ⟨h1, h2⟩
        exact ⟨c0, h1, cs, (mem_allCoords ds cs).mpr h2, rfl⟩

theorem allCoords_nodup : ∀ (dims : List Nat), (allCoords dims).Nodup
  | [] => by simp [allCoords]
  | d :: ds => by
    simp only [allCoords]
    rw [List.nodup_flatMap]
    refine ⟨fun k _ => (allCoords_nodup ds).map List.cons_injective, ?_⟩
    refine List.Pairwise.imp ?_ (List.nodup_range d)
    intro a b hab x hxa hxb
    simp only [List.mem_map] at hxa hxb
    obtain ⟨ca, _, hca⟩ := hxa
    obtain ⟨cb, _, hcb⟩ := hxb
    rw [← hca] at hcb
    injection hcb with h1 _
    exact hab h1.symm

theorem sum_const_range (n c : Nat) : ((List.range n).map (fun _ => c)).sum = n * c := by
  induction n with
  | zero => simp
  | succ m ih =>
    rw [List.range_succ]
    simp [ih]
    ring

theorem allCoords_length : ∀ (dims : List Nat), (allCoords dims).length = dims.prod
  | [] => by simp [allCoords]
  | d :: ds => by
    simp only [allCoords, List.length_flatMap, Function.comp_def]
    have hconst : (List.range d).map (fun k => ((allCoords ds).map (k :: ·)).length)
        = (List.range d).map (fun _ => (allCoords ds).length) := by
      simp [List.length_map]
    rw [hconst, sum_const_range, allCoords_length ds, List.prod_cons]

/-- A set of in-shape coordinates is smaller than the full grid exactly when
some in-shape coordinate is missing from it. -/
theorem finset_coords_lt (F : Finset (List Nat)) (dims : List Nat)
    (hsub : ∀ c ∈ F, inShape c dims = true) :
    (F.card < dims.prod ↔ ∃ c, inShape c dims = true ∧ c ∉ F) := by
  have hca : (allCoords dims).toFinset.card = dims.prod := by
    rw [List.toFinset_card_of_nodup (allCoords_nodup dims), allCoords_length]
  have hFsub : F ⊆ (allCoords dims).toFinset := by
    intro c hc
    rw [List.mem_toFinset]
    exact (mem_allCoords _ _).mpr (hsub c hc)
  constructor
  · intro hlt
    by_contra hno
    push_neg at hno
    have hAs : (allCoords dims).toFinset ⊆ F := by
      intro c hc
      rw [List.mem_toFinset] at hc
      exact hno c ((mem_allCoords _ _).mp hc)
    have := Finset.card_le_card hAs
    omega
  · rintro ⟨c, hcin, hcnot⟩
    have hssub : F ⊂ (allCoords dims).toFinset := by
      refine ⟨hFsub, fun hsup => hcnot ?_⟩
      have hcA : c ∈ (allCoords dims).toFinset := by
        rw [List.mem_toFinset]
        exact (mem_allCoords _ _).mpr hcin
      exact hsup hcA
    have := Finset.card_lt_card hssub
    omega

theorem coords_card_lt [DecidableEq α] (T : LL α) (dims : List Nat)
    (hw : wfBL T dims = true) :
    ((llCoords T).length < dims.prod ↔
      ∃ c, inShape c dims = true ∧ c ∉ llCoords T) := by
  have h := finset_coords_lt (llCoords T).toFinset dims (by
    intro c hc
    rw [List.mem_toFinset] at hc
    exact llCoords_inShape T dims c hw hc)
  rw [List.toFinset_card_of_nodup (llCoords_nodup T dims hw)] at h
  simpa [List.mem_toFinset] using h

theorem union_card_lt [DecidableEq α] (lt rt : LL α) (dims : List Nat)
    (hwl : wfBL lt dims = true) (hwr : wfBL rt dims = true) :
    (unionCount lt rt < dims.prod ↔
      ∃ c, inShape c dims = true ∧ c ∉ llCoords lt ∧ c ∉ llCoords rt) := by
  have h := finset_coords_lt ((llCoords lt).toFinset ∪ (llCoords rt).toFinset) dims (by
    intro c hc
    rw [Finset.mem_union, List.mem_toFinset, List.mem_toFinset] at hc
    rcases hc with hc | hc
    · exact llCoords_inShape lt dims c hwl hc
    · exact llCoords_inShape rt dims c hwr hc)
  rw [← unionCount_card lt rt dims hwl hwr] at h
  simpa [Finset.mem_union, List.mem_toFinset, not_or] using h

/-! ## Characterization of `list_storage_eqeq` as elementwise dense equality -/

theorem lookup_none_of_not_mem {l : LL α} {c : List Nat}
    (h : c ∉ llCoords l) : llLookup l c = none := by
  cases h' : llLookup l c with
  | none => rfl
  | some x => exact absurd (llLookup_some_mem l c x h') h

theorem eqeq_characterization [DecidableEq α] (L R : LIST_STORAGE α)
    (hL : wfBL L.rows L.shape = true) (hR : wfBL R.rows L.shape = true)
    (hlen : L.shape.length = L.rank)
    (hpos : ∀ d ∈ L.shape, 0 < d) :
    (list_storage_eqeq L R = true ↔
      ∀ c, inShape c L.shape = true →
        effVal L.rows L.default_val c = effVal R.rows R.default_val c) := by
  obtain ⟨lrank, lshape, dl, lrows⟩ := L
  obtain ⟨rrank, rshape, dr, rrows⟩ := R
  dsimp only at hL hR hlen hpos ⊢
  have hprod : 0 < lshape.prod := List.prod_pos hpos
  have hex : ∃ c0, inShape c0 lshape = true := by
    have hlp : 0 < (allCoords lshape).length := by
      rw [allCoords_length]
      exact hprod
    obtain ⟨c0, hc0⟩ := List.exists_mem_of_length_pos hlp
    exact ⟨c0, (mem_allCoords _ _).mp hc0⟩
  obtain ⟨c0, hc0⟩ := hex
  cases lrows with
  | nil =>
    cases rrows with
    | nil =>
      simp only [list_storage_eqeq, count_storage_max_elements]
      rw [decide_eq_true_iff]
      constructor
      · intro hd c hc
        simp [effVal, llLookup, hd]
      · intro hall
        have := hall c0 hc0
        simpa [effVal, llLookup] using this
    | cons rk re rrest =>
      cases hsh : lshape with
      | nil =>
        rw [hsh] at hR
        simp [wfBL] at hR
      | cons d ds =>
        subst hsh
        have hrw : lrank - 1 = ds.length := by
          simp only [List.length_cons] at hlen
          omega
        have VW := value_walk dl (LL.cons rk re rrest) d ds 0 hR
        simp only [list_storage_eqeq, count_storage_max_elements, hrw]
        cases hp : (list_eqeq_value (LL.cons rk re rrest) dl ds.length 0).1 with
        | false =>
          simp only [hp, Bool.not_false, if_pos, Bool.false_eq_true, false_iff]
          intro hall
          have hvf : ∀ c ∈ llCoords (LL.cons rk re rrest),
              llLookup (LL.cons rk re rrest) c = some dl := by
            intro c hc
            obtain ⟨x, hx⟩ := ll_mem_lookup (LL.cons rk re rrest) (d :: ds) c hR hc
            have hcin := llCoords_inShape (LL.cons rk re rrest) (d :: ds) c hR hc
            have heff := hall c hcin
            simp only [effVal, llLookup, hx, Option.getD_none, Option.getD_some] at heff
            rw [hx, ← heff]
          have := VW.1.mpr hvf
          rw [hp] at this
          exact Bool.noConfusion this
        | true =>
          have hforall := VW.1.mp hp
          have hcount := VW.2 hp
          simp only [Nat.zero_add] at hcount
          simp only [hp, Bool.not_true, Bool.false_eq_true, if_false, hcount]
          by_cases hlt : (llCoords (LL.cons rk re rrest)).length < (d :: ds).prod
          · simp only [if_pos hlt]
            rw [decide_eq_true_iff]
            constructor
            · intro hd c hc
              by_cases hcm : c ∈ llCoords (LL.cons rk re rrest)
              · simp [effVal, llLookup, hforall c hcm]
              · simp [effVal, llLookup, lookup_none_of_not_mem hcm, hd]
            · intro hall
              obtain ⟨c, hcin, hcnot⟩ := (coords_card_lt _ (d :: ds) hR).mp hlt
              have := hall c hcin
              simpa [effVal, llLookup, lookup_none_of_not_mem hcnot] using this
          · simp only [if_neg hlt, true_iff]
            intro c hc
            have hcm : c ∈ llCoords (LL.cons rk re rrest) := by
              by_contra hcm
              exact hlt ((coords_card_lt _ (d :: ds) hR).mpr ⟨c, hc, hcm⟩)
            simp [effVal, llLookup, hforall c hcm]
  | cons lk le lrest =>
    cases rrows with
    | nil =>
      cases hsh : lshape with
      | nil =>
        rw [hsh] at hL
        simp [wfBL] at hL
      | cons d ds =>
        subst hsh
        have hrw : lrank - 1 = ds.length := by
          simp only [List.length_cons] at hlen
          omega
        have VW := value_walk dr (LL.cons lk le lrest) d ds 0 hL
        simp only [list_storage_eqeq, count_storage_max_elements, hrw]
        cases hp : (list_eqeq_value (LL.cons lk le lrest) dr ds.length 0).1 with
        | false =>
          simp only [hp, Bool.not_false, if_pos, Bool.false_eq_true, false_iff]
          intro hall
          have hvf : ∀ c ∈ llCoords (LL.cons lk le lrest),
              llLookup (LL.cons lk le lrest) c = some dr := by
            intro c hc
            obtain ⟨x, hx⟩ := ll_mem_lookup (LL.cons lk le lrest) (d :: ds) c hL hc
            have hcin := llCoords_inShape (LL.cons lk le lrest) (d :: ds) c hL hc
            have heff := hall c hcin
            simp only [effVal, llLookup, hx, Option.getD_none, Option.getD_some] at heff
            rw [hx, heff]
          have := VW.1.mpr hvf
          rw [hp] at this
          exact Bool.noConfusion this
        | true =>
          have hforall := VW.1.mp hp
          have hcount := VW.2 hp
          simp only [Nat.zero_add] at hcount
          simp only [hp, Bool.not_true, Bool.false_eq_true, if_false, hcount]
          by_cases hlt : (llCoords (LL.cons lk le lrest)).length < (d :: ds).prod
          · simp only [if_pos hlt]
            rw [decide_eq_true_iff]
            constructor
            · intro hd c hc
              by_cases hcm : c ∈ llCoords (LL.cons lk le lrest)
              · simp [effVal, llLookup, hforall c hcm]
              · simp [effVal, llLookup, lookup_none_of_not_mem hcm, hd]
            · intro hall
              obtain ⟨c, hcin, hcnot⟩ := (coords_card_lt _ (d :: ds) hL).mp hlt
              have := hall c hcin
              simpa [effVal, llLookup, lookup_none_of_not_mem hcnot] using this
          · simp only [if_neg hlt, true_iff]
            intro c hc
            have hcm : c ∈ llCoords (LL.cons lk le lrest) := by
              by_contra hcm
              exact hlt ((coords_card_lt _ (d :: ds) hL).mpr ⟨c, hc, hcm⟩)
            simp [effVal, llLookup, hforall c hcm]
    | cons rk re rrest =>
      cases hsh : lshape with
      | nil =>
        rw [hsh] at hL
        simp [wfBL] at hL
      | cons d ds =>
        subst hsh
        have hrw : lrank - 1 = ds.length := by
          simp only [List.length_cons] at hlen
          omega
        have LW := list_walk dl dr (LL.cons lk le lrest) (LL.cons rk re rrest)
          d ds 0 hL hR
        simp only [list_storage_eqeq, count_storage_max_elements, hrw]
        cases hp : (list_eqeq_list (LL.cons lk le lrest) (LL.cons rk re rrest)
            dl dr ds.length 0).1 with
        | false =>
          simp only [hp, Bool.not_false, if_pos, Bool.false_eq_true, false_iff]
          intro hall
          have hvf : ∀ c, (c ∈ llCoords (LL.cons lk le lrest) ∨
              c ∈ llCoords (LL.cons rk re rrest)) →
              (llLookup (LL.cons lk le lrest) c).getD dl
                = (llLookup (LL.cons rk re rrest) c).getD dr := by
            intro c hc
            have hcin : inShape c (d :: ds) = true := by
              rcases hc with hc | hc
              · exact llCoords_inShape _ (d :: ds) c hL hc
              · exact llCoords_inShape _ (d :: ds) c hR hc
            exact hall c hcin
          have := LW.1.mpr hvf
          rw [hp] at this
          exact Bool.noConfusion this
        | true =>
          have hforall := LW.1.mp hp
          have hcount := LW.2 hp
          simp only [Nat.zero_add] at hcount
          simp only [hp, Bool.not_true, Bool.false_eq_true, if_false, hcount]
          by_cases hlt : unionCount (LL.cons lk le lrest) (LL.cons rk re rrest)
              < (d :: ds).prod
          · simp only [if_pos hlt]
            rw [decide_eq_true_iff]
            constructor
            · intro hd c hc
              by_cases hcm : c ∈ llCoords (LL.cons lk le lrest) ∨
                  c ∈ llCoords (LL.cons rk re rrest)
              · exact hforall c hcm
              · push_neg at hcm
                simp [effVal, lookup_none_of_not_mem hcm.1,
                  lookup_none_of_not_mem hcm.2, hd]
            · intro hall
              obtain ⟨c, hcin, hcnl, hcnr⟩ :=
                (union_card_lt _ _ (d :: ds) hL hR).mp hlt
              have := hall c hcin
              simpa [effVal, lookup_none_of_not_mem hcnl,
                lookup_none_of_not_mem hcnr] using this
          · simp only [if_neg hlt, true_iff]
            intro c hc
            have hcm : c ∈ llCoords (LL.cons lk le lrest) ∨
                c ∈ llCoords (LL.cons rk re rrest) := by
              by_contra hcm
              push_neg at hcm
              exact hlt ((union_card_lt _ _ (d :: ds) hL hR).mpr
                ⟨c, hc, hcm.1, hcm.2⟩)
            exact hforall c hcm

/-! ## Symmetry and reflexivity of the equality engine -/

theorem list_eqeq_list_symm [DecidableEq α] :
    ∀ (lt rt : LL α) (lv rv : α) (rec checked : Nat),
    list_eqeq_list lt rt lv rv rec checked = list_eqeq_list rt lt rv lv rec checked
  | LL.nil, LL.nil, lv, rv, rec, checked => by
    rw [list_eqeq_list.eq_def]
    conv_rhs => rw [list_eqeq_list.eq_def]
  | LL.nil, LL.cons rk re rrest, lv, rv, rec, checked => by
    rw [list_eqeq_list.eq_def]
    conv_rhs => rw [list_eqeq_list.eq_def]
  | LL.cons lk le lrest, LL.nil, lv, rv, rec, checked => by
    rw [list_eqeq_list.eq_def]
    conv_rhs => rw [list_eqeq_list.eq_def]
  | LL.cons lk le lrest, LL.cons rk re rrest, lv, rv, rec, checked => by
    rw [list_eqeq_list.eq_def]
    conv_rhs => rw [list_eqeq_list.eq_def]
    by_cases heq : lk = rk
    · subst heq
      simp only [if_pos rfl]
      cases rec with
      | zero =>
        cases le with
        | elem la =>
          cases re with
          | elem ra =>
            by_cases hab : la = ra
            · simp only [if_pos hab, if_pos hab.symm]
              exact list_eqeq_list_symm lrest rrest lv rv 0 (checked + 1)
            · simp [hab, Ne.symm hab]
          | sub rtc => simp
        | sub ltc =>
          cases re with
          | elem ra => simp
          | sub rtc => simp
      | succ r =>
        cases le with
        | elem la =>
          cases re with
          | elem ra => simp
          | sub rtc => simp
        | sub ltc =>
          cases re with
          | elem ra => simp
          | sub rtc =>
            have hin := list_eqeq_list_symm ltc rtc lv rv r checked
            simp only [hin]
            by_cases hp : (list_eqeq_list rtc ltc rv lv r checked).1 = true
            · simp only [hp, if_pos rfl, if_true]
              exact list_eqeq_list_symm lrest rrest lv rv (r + 1)
                (list_eqeq_list rtc ltc rv lv r checked).2
            · simp only [hp]
              simp [hp]
    · have hne2 : ¬ rk = lk := fun h => heq h.symm
      by_cases hlt : lk < rk
      · have hnlt2 : ¬ rk < lk := by omega
        simp only [if_neg heq, if_neg hne2, if_pos hlt, if_neg hnlt2]
        cases rec with
        | zero =>
          cases le with
          | elem la =>
            by_cases hav : la = rv
            · simp only [if_pos hav]
              exact list_eqeq_list_symm lrest (LL.cons rk re rrest) lv rv 0
                (checked + 1)
            · simp only [if_neg hav]
          | sub ltc => simp
        | succ r =>
          cases le with
          | elem la => simp
          | sub ltc =>
            by_cases hp : (list_eqeq_value ltc rv r checked).1 = true
            · simp only [hp, if_pos rfl, if_true]
              exact list_eqeq_list_symm lrest (LL.cons rk re rrest) lv rv (r + 1)
                (list_eqeq_value ltc rv r checked).2
            · simp [hp]
      · have hgt : rk < lk := by omega
        simp only [if_neg heq, if_neg hne2, if_neg hlt, if_pos hgt]
        cases rec with
        | zero =>
          cases re with
          | elem ra =>
            by_cases hav : ra = lv
            · simp only [if_pos hav]
              exact list_eqeq_list_symm (LL.cons lk le lrest) rrest lv rv 0
                (checked + 1)
            · simp only [if_neg hav]
          | sub rtc => simp
        | succ r =>
          cases re with
          | elem ra => simp
          | sub rtc =>
            by_cases hp : (list_eqeq_value rtc lv r checked).1 = true
            · simp only [hp, if_pos rfl, if_true]
              exact list_eqeq_list_symm (LL.cons lk le lrest) rrest lv rv (r + 1)
                (list_eqeq_value rtc lv r checked).2
            · simp [hp]
termination_by lt rt lv rv rec checked => sizeOf lt + sizeOf rt

theorem list_storage_eqeq_symm [DecidableEq α] (L R : LIST_STORAGE α)
    (hshape : L.shape = R.shape) (hrank : L.rank = R.rank) :
    list_storage_eqeq L R = list_storage_eqeq R L := by
  obtain ⟨lrank, lshape, dl, lrows⟩ := L
  obtain ⟨rrank, rshape, dr, rrows⟩ := R
  dsimp only at hshape hrank
  subst hshape
  subst hrank
  have hdec : decide (dl = dr) = decide (dr = dl) :=
    decide_eq_decide.mpr eq_comm
  cases lrows with
  | nil =>
    cases rrows with
    | nil => simpa [list_storage_eqeq] using hdec
    | cons rk re rrest =>
      simp only [list_storage_eqeq, count_storage_max_elements]
      cases hp : (list_eqeq_value (LL.cons rk re rrest) dl (lrank - 1) 0).1 <;>
        simp [hp, hdec]
  | cons lk le lrest =>
    cases rrows with
    | nil =>
      simp only [list_storage_eqeq, count_storage_max_elements]
      cases hp : (list_eqeq_value (LL.cons lk le lrest) dr (lrank - 1) 0).1 <;>
        simp [hp, hdec]
    | cons rk re rrest =>
      simp only [list_storage_eqeq, count_storage_max_elements,
        list_eqeq_list_symm (LL.cons lk le lrest) (LL.cons rk re rrest) dl dr
          (lrank - 1) 0]
      cases hp : (list_eqeq_list (LL.cons rk re rrest) (LL.cons lk le lrest)
          dr dl (lrank - 1) 0).1 <;>
        simp [hp, hdec]

theorem list_storage_eqeq_refl [DecidableEq α] (L : LIST_STORAGE α)
    (hL : wfBL L.rows L.shape = true) (hlen : L.shape.length = L.rank) :
    list_storage_eqeq L L = true := by
  obtain ⟨lrank, lshape, dl, lrows⟩ := L
  dsimp only at hL hlen ⊢
  cases lrows with
  | nil => simp [list_storage_eqeq]
  | cons lk le lrest =>
    cases hsh : lshape with
    | nil =>
      rw [hsh] at hL
      simp [wfBL] at hL
    | cons d ds =>
      subst hsh
      have hrw : lrank - 1 = ds.length := by
        simp only [List.length_cons] at hlen
        omega
      have LW := list_walk dl dl (LL.cons lk le lrest) (LL.cons lk le lrest)
        d ds 0 hL hL
      have hp : (list_eqeq_list (LL.cons lk le lrest) (LL.cons lk le lrest)
          dl dl ds.length 0).1 = true :=
        LW.1.mpr (fun c _ => rfl)
      simp [list_storage_eqeq, count_storage_max_elements, hrw, hp]

/-! ## Claims C5 and C8 -/

/-- Claim C5, counterexample to the claim as stated: with a zero extent in the
left operand's shape the coordinate set is empty, so the right-hand side of the
claimed equivalence holds vacuously, yet `list_storage_eqeq` compares the two
default values (both root lists are empty) and returns `false` when they
differ.  Both containers have rank 1 and the same element type. -/
theorem claim_C5_counterexample :
    ¬ ((list_storage_eqeq (⟨1, [0], 1, LL.nil⟩ : LIST_STORAGE Nat)
          (⟨1, [0], 2, LL.nil⟩ : LIST_STORAGE Nat) = true) ↔
        ∀ c, inShape c [0] = true →
          effVal (LL.nil : LL Nat) 1 c = effVal (LL.nil : LL Nat) 2 c) := by
  intro h
  have hvac : ∀ c, inShape c ([0] : List Nat) = true →
      effVal (LL.nil : LL Nat) 1 c = effVal (LL.nil : LL Nat) 2 c := by
    intro c hc
    exfalso
    cases c with
    | nil => exact absurd hc (by decide)
    | cons c0 cs =>
      cases cs with
      | nil => exact absurd hc (by simp [inShape])
      | cons c1 cs' => exact absurd hc (by simp [inShape])
  exact absurd (h.mpr hvac) (by decide)

/-- Claim C5 (amended): for two well-formed containers of matching rank and
element type, *provided every extent of the left operand's shape is positive*,
`list_storage_eqeq left right` returns `true` if and only if, for every
coordinate in `[0, shape)` using the left operand's shape, the effective
element of the left (stored value, or its default if absent) equals the
effective element of the right; in particular when both root lists are empty
the result is exactly the equality of the two default values, and when the
result is `true` any in-shape coordinate stored in neither container forces
the two default values to be equal. -/
theorem claim_C5 [DecidableEq α] (L R : LIST_STORAGE α)
    (hL : wfBL L.rows L.shape = true) (hR : wfBL R.rows L.shape = true)
    (hrank : R.rank = L.rank) (hlen : L.shape.length = L.rank)
    (hpos : ∀ d ∈ L.shape, 0 < d) :
    (list_storage_eqeq L R = true ↔
      ∀ c, inShape c L.shape = true →
        effVal L.rows L.default_val c = effVal R.rows R.default_val c) ∧
    (L.rows = LL.nil → R.rows = LL.nil →
      list_storage_eqeq L R = decide (L.default_val = R.default_val)) ∧
    (list_storage_eqeq L R = true →
      ∀ c, inShape c L.shape = true → llLookup L.rows c = none →
        llLookup R.rows c = none → L.default_val = R.default_val) := by
  refine ⟨eqeq_characterization L R hL hR hlen hpos, ?_, ?_⟩
  · intro h1 h2
    obtain ⟨lrank, lshape, dl, lrows⟩ := L
    obtain ⟨rrank, rshape, dr, rrows⟩ := R
    dsimp only at h1 h2 ⊢
    subst h1
    subst h2
    simp [list_storage_eqeq]
  · intro htrue c hc hln hrn
    have hv := (eqeq_characterization L R hL hR hlen hpos).mp htrue c hc
    simpa [effVal, hln, hrn] using hv

/-- Witness for claim C5: a concrete rank-1 container with a positive shape
extent equals itself, via the amended equivalence. -/
theorem claim_C5_witness :
    list_storage_eqeq
        (⟨1, [2], (0 : Nat), LL.cons 0 (Entry.elem 5) LL.nil⟩ : LIST_STORAGE Nat)
        (⟨1, [2], (0 : Nat), LL.cons 0 (Entry.elem 5) LL.nil⟩ : LIST_STORAGE Nat)
      = true :=
  ((claim_C5
      (⟨1, [2], (0 : Nat), LL.cons 0 (Entry.elem 5) LL.nil⟩ : LIST_STORAGE Nat)
      (⟨1, [2], (0 : Nat), LL.cons 0 (Entry.elem 5) LL.nil⟩ : LIST_STORAGE Nat)
      (by decide) (by decide) (by decide) (by decide) (by decide)).1).mpr
    (fun c _ => rfl)

/-- Claim C8, counterexample to the claim as stated: two containers of
matching rank (both 1) and element type but different shapes, for which
`list_storage_eqeq` is not symmetric, because the code reads only the left
operand's shape when computing the element budget. -/
theorem claim_C8_counterexample :
    ¬ (list_storage_eqeq (⟨1, [2], 0, LL.nil⟩ : LIST_STORAGE Nat)
          (⟨1, [1], 1, LL.cons 0 (Entry.elem 0) LL.nil⟩ : LIST_STORAGE Nat)
        = list_storage_eqeq
          (⟨1, [1], 1, LL.cons 0 (Entry.elem 0) LL.nil⟩ : LIST_STORAGE Nat)
          (⟨1, [2], 0, LL.nil⟩ : LIST_STORAGE Nat)) := by decide

/-- Claim C8 (amended): `list_storage_eqeq A A = true` for every well-formed
container `A`; and `list_storage_eqeq A B = list_storage_eqeq B A` for every
pair of containers of matching rank and element type *whose shapes are also
equal* (the code uses only the left operand's shape, so matching rank alone
does not give symmetry). -/
theorem claim_C8 [DecidableEq α] (A B : LIST_STORAGE α)
    (hA : wfBL A.rows A.shape = true) (hlen : A.shape.length = A.rank)
    (hshape : A.shape = B.shape) (hrank : A.rank = B.rank) :
    list_storage_eqeq A A = true ∧
      list_storage_eqeq A B = list_storage_eqeq B A :=
  ⟨list_storage_eqeq_refl A hA hlen, list_storage_eqeq_symm A B hshape hrank⟩

/-- Witness for claim C8 at a concrete pair of same-shape rank-1 containers. -/
theorem claim_C8_witness :
    (list_storage_eqeq
        (⟨1, [2], (0 : Nat), LL.cons 1 (Entry.elem 4) LL.nil⟩ : LIST_STORAGE Nat)
        (⟨1, [2], (0 : Nat), LL.cons 1 (Entry.elem 4) LL.nil⟩ : LIST_STORAGE Nat)
      = true) ∧
    (list_storage_eqeq
        (⟨1, [2], (0 : Nat), LL.cons 1 (Entry.elem 4) LL.nil⟩ : LIST_STORAGE Nat)
        (⟨1, [2], (3 : Nat), LL.nil⟩ : LIST_STORAGE Nat)
      = list_storage_eqeq
        (⟨1, [2], (3 : Nat), LL.nil⟩ : LIST_STORAGE Nat)
        (⟨1, [2], (0 : Nat), LL.cons 1 (Entry.elem 4) LL.nil⟩ : LIST_STORAGE Nat)) :=
  claim_C8
    (⟨1, [2], (0 : Nat), LL.cons 1 (Entry.elem 4) LL.nil⟩ : LIST_STORAGE Nat)
    (⟨1, [2], (3 : Nat), LL.nil⟩ : LIST_STORAGE Nat)
    (by decide) (by decide) (by decide) (by decide)

end NML
